import Mathlib

/-!
Verification of the krill predicate engine (`lib/krill.js`).

The embedding models the JSON-like values that `createPredicate` and the
primitive `krillPrim*` functions operate on, together with the fragment of
JavaScript runtime behaviour those functions rely on (`typeof`, truthiness,
`for..in` key enumeration, property lookup, string coercion, and loose
equality restricted to scalar operands with integer numerics).  Errors
thrown by the source are represented with an explicit error type, classified
by the taxonomy the library's callers observe (malformed tree, schema
violation, missing translation, unsupported render, assertion failure).
-/

namespace Krill

/-- JSON-like JavaScript value, the input format of `createPredicate`.
Numbers are modelled as integers (the library's own tests and examples use
integer constants only; floating point is outside the model). -/
inductive JSVal where
  | num  (n : Int)
  | str  (s : String)
  | bool (b : Bool)
  | null
  | arr  (elts : List JSVal)
  | obj  (props : List (String × JSVal))

/-- Error taxonomy for the exceptions thrown by `lib/krill.js`: `VError`s from
the validators (malformed tree), `VError`s from the type checker (schema
violation), the "no translation for field" `VError` from `replaceFields`,
the `Error` thrown by `toLDAPFilterString` on a trivial predicate, and
`mod_assert` assertion failures (including the `TypeError`s raised by calling
array methods on non-arrays, which are likewise host-level failures). -/
inductive KrillErr where
  | malformedTree (msg : String)
  | schemaViolation (msg : String)
  | missingTranslation (field : String)
  | unsupportedRender
  | assertFail
deriving Repr, DecidableEq

/-- JavaScript `typeof` on the modelled values (`typeof null` is "object"). -/
def jsTypeof : JSVal → String
  | .num _  => "number"
  | .str _  => "string"
  | .bool _ => "boolean"
  | .null   => "object"
  | .arr _  => "object"
  | .obj _  => "object"

/-- `typeof` where `none` stands for JavaScript `undefined`. -/
def jsTypeofOpt : Option JSVal → String
  | some v => jsTypeof v
  | none   => "undefined"

/-- JavaScript truthiness of a value (arrays and objects are always truthy). -/
def jsTruthy : JSVal → Bool
  | .num n  => n != 0
  | .str s  => !s.isEmpty
  | .bool b => b
  | .null   => false
  | .arr _  => true
  | .obj _  => true

/-- The keys a `for..in` loop enumerates: an object's own keys in insertion
order, an array's (or primitive string's) index strings; no enumerable keys
on other primitives. -/
def jsKeys : JSVal → List String
  | .obj props => props.map Prod.fst
  | .arr xs    => (List.range xs.length).map (fun i => toString i)
  | .str s     => (List.range s.length).map (fun i => toString i)
  | _          => []

/-- Decimal parse of a character list (the digit-string check and value of
`String.toNat?`, phrased structurally). -/
def decListToNat? (cs : List Char) : Option Nat :=
  if cs.isEmpty then none
  else if cs.all Char.isDigit then
    some (cs.foldl (fun a c => a * 10 + (c.toNat - 48)) 0)
  else none

/-- Decimal parse of an index string. -/
def decStrToNat? (s : String) : Option Nat := decListToNat? s.data

/-- Property read `v[k]`, `none` standing for `undefined`.  Array and string
indexing accepts the decimal index strings that `for..in` produced. -/
def jsGet : JSVal → String → Option JSVal
  | .obj props, k => props.lookup k
  | .arr xs, k    => decStrToNat? k >>= fun i => xs[i]?
  | .str s, k     => decStrToNat? k >>= fun i => (s.data[i]?).map (fun c => .str (String.mk [c]))
  | _, _          => none

/-- The `.length` property where the source reads it (`pred[key].length`):
defined for arrays and strings, `undefined` (`none`) otherwise.  (A plain
object carrying its own numeric `length` property is not modelled; no
predicate reaching these code paths has one.) -/
def jsLength : JSVal → Option Nat
  | .arr xs => some xs.length
  | .str s  => some s.length
  | _       => none

mutual

/-- JavaScript string coercion (`'' + v`) for the modelled values. -/
def jsValToString : JSVal → String
  | .num n  => toString n
  | .str s  => s
  | .bool b => cond b "true" "false"
  | .null   => "null"
  | .obj _  => "[object Object]"
  | .arr xs => jsArrJoin xs

/-- `Array.prototype.toString`: elements joined with commas, `null` elements
rendering as the empty string. -/
def jsArrJoin : List JSVal → String
  | [] => ""
  | [JSVal.null] => ""
  | [x] => jsValToString x
  | JSVal.null :: xs => "," ++ jsArrJoin xs
  | x :: xs => jsValToString x ++ "," ++ jsArrJoin xs

end

/-- String coercion with `none` rendering as JavaScript `undefined` does. -/
def jsOptToString : Option JSVal → String
  | some v => jsValToString v
  | none   => "undefined"

/-- The decimal-integer fragment of JavaScript `Number(string)`: surrounding
whitespace trimmed, the empty string converting to `0`, an optional sign
followed by decimal digits, anything else `NaN` (`none`).  (Fractional, hex
and exponent forms are outside the integer model.) -/
def jsStrToNum (s : String) : Option Int :=
  let t := ((s.data.dropWhile Char.isWhitespace).reverse.dropWhile
    Char.isWhitespace).reverse
  match t with
  | [] => some 0
  | '-' :: rest => (decListToNat? rest).map (fun n => -(n : Int))
  | '+' :: rest => (decListToNat? rest).map (fun n => (n : Int))
  | _ => (decListToNat? t).map (fun n => (n : Int))

/-- `ToNumber` on a scalar operand of loose equality: booleans convert to
0/1, strings via `jsStrToNum`; arrays and objects (whose `ToPrimitive`
detour never yields a number for the values reaching the evaluator here)
give `NaN`. -/
def jsToNumLoose : JSVal → Option Int
  | .num n  => some n
  | .bool b => some (cond b 1 0)
  | .str s  => jsStrToNum s
  | _       => none

/-- JavaScript loose equality `==` on the scalar fragment: same-type
comparisons are direct, `null` equals only `null` (`undefined` is not a
`JSVal`), and mixed scalar comparisons go through numeric conversion.
Distinct arrays/objects compare by reference in JS and are never equal to a
fresh scalar comparison here. -/
def jsLooseEq (a b : JSVal) : Bool :=
  match a, b with
  | .str x, .str y => x == y
  | .null, .null => true
  | .null, _ => false
  | _, .null => false
  | x, y =>
      match jsToNumLoose x, jsToNumLoose y with
      | some m, some n => m == n
      | _, _ => false

/-! ## Operator table (`krillOps`) -/

/-- The relational operator names of `krillOps`. -/
def relOpNames : List String := ["le", "lt", "ge", "gt", "eq", "ne"]

/-- The logical operator names of `krillOps`. -/
def logOpNames : List String := ["and", "or"]

def isRelOp (k : String) : Bool := relOpNames.contains k

def isLogOp (k : String) : Bool := logOpNames.contains k

/-- `key in krillOps`. -/
def isKrillOp (k : String) : Bool := isRelOp k || isLogOp k

/-- The `types` field of a `RelationalOperator`: the constant types the
operator accepts (`eq`/`ne` take number, string and boolean; the ordering
operators take number only). -/
def opAcceptedTypes (k : String) : List String :=
  if k == "eq" || k == "ne" then ["number", "string", "boolean"] else ["number"]

/-- `names.cstyle` of each operator. -/
def opCStyleName (k : String) : String :=
  if k == "le" then "<="
  else if k == "lt" then "<"
  else if k == "ge" then ">="
  else if k == "gt" then ">"
  else if k == "eq" then "=="
  else if k == "ne" then "!="
  else if k == "and" then "&&"
  else if k == "or" then "||"
  else "undefined"

/-- `names.ldap` for the relational operators whose LDAP name is a plain
string (`ne`'s LDAP name is the builder function, handled separately). -/
def opLdapRelName (k : String) : String :=
  if k == "le" then "<="
  else if k == "lt" then "<"
  else if k == "ge" then ">="
  else if k == "gt" then ">"
  else if k == "eq" then "="
  else "undefined"

/-- `names.ldap` of the logical operators. -/
def opLdapLogName (k : String) : String :=
  if k == "and" then "&" else if k == "or" then "|" else "undefined"

/-- `buildLdapNotEqualFilter`: the negated-equality LDAP idiom used as the
`ldap` name of `ne`. -/
def buildLdapNotEqualFilter (lhs rhs : String) : String :=
  "(!(" ++ lhs ++ "=" ++ rhs ++ "))"

/-- The comparison functions of the operator table (the `evalfunc` passed to
each `RelationalOperator`): native numeric ordering for the four ordering
operators (their call site asserts both operands are numbers first), loose
equality for `eq`/`ne`.  Logical keys never reach this table. -/
def krillOpEvalFn : String → JSVal → JSVal → Bool
  | "lt", .num a, .num b => a < b
  | "le", .num a, .num b => a ≤ b
  | "gt", .num a, .num b => a > b
  | "ge", .num a, .num b => a ≥ b
  | "eq", a, b => jsLooseEq a b
  | "ne", a, b => !jsLooseEq a b
  | _, _, _ => false

/-! ## Primitive predicate operations -/

/-- `krillPrimTrivial`: `jsprim.isEmpty`, true when a `for..in` loop finds no
key.  Note an empty array is as empty as the empty object. -/
def krillPrimTrivial : JSVal → Bool
  | .obj props => props.isEmpty
  | .arr xs    => xs.isEmpty
  | .str s     => s.isEmpty
  | _          => true

/-- `krillPrimGetKey`: enumerate the keys; throw unless exactly one. -/
def krillPrimGetKey (pred : JSVal) : Except KrillErr String :=
  match jsKeys pred with
  | []  => .error (.malformedTree "missing key")
  | [k] => .ok k
  | _   => .error (.malformedTree "expected one key")

/-- `krillPrimValidateRel`: payload of a relational operator must be truthy,
an array of exactly two elements, a string field and a scalar constant. -/
def krillPrimValidateRel (v : JSVal) (k : String) : Except KrillErr Unit :=
  if !jsTruthy v then .error (.malformedTree ("missing key " ++ k))
  else match v with
  | .arr [f, c] =>
      if jsTypeof f != "string" then
        .error (.malformedTree ("field " ++ k ++ " is not a string"))
      else if jsTypeof c != "number" && jsTypeof c != "string" &&
              jsTypeof c != "boolean" then
        .error (.malformedTree ("field " ++ k ++ " is not a string, number, or boolean"))
      else .ok ()
  | .arr _ => .error (.malformedTree (k ++ " array must have 2 elements"))
  | _ => .error (.malformedTree ("operator " ++ k ++ ": expected array"))

mutual

/-- `krillPrimValidateSyntax`: reject non-objects; an empty enumeration is
trivial and valid; otherwise exactly one key naming a known operator, whose
payload the operator's `validate` function checks.  A non-empty array has
index keys, so a singleton array reaches the unknown-operator throw and a
longer one the one-key check. -/
def krillPrimValidateSyntax : JSVal → Except KrillErr Unit
  | .arr [] => .ok ()
  | .arr [_] => .error (.malformedTree "unknown operator 0")
  | .arr (_ :: _ :: _) => .error (.malformedTree "expected one key")
  | .obj [] => .ok ()
  | .obj [(k, v)] =>
      if !isKrillOp k then .error (.malformedTree ("unknown operator " ++ k))
      else if isRelOp k then krillPrimValidateRel v k
      else krillPrimValidateLogPayload v k
  | .obj (_ :: _ :: _) => .error (.malformedTree "expected one key")
  | _ => .error (.malformedTree "must be an object")

/-- `krillPrimValidateLog`: payload must be truthy, an array of at least two
elements, all of them valid predicates. -/
def krillPrimValidateLogPayload (v : JSVal) (k : String) : Except KrillErr Unit :=
  if !jsTruthy v then
    .error (.malformedTree ("expected " ++ k ++ " in logical expression"))
  else match v with
  | .arr xs =>
      if xs.length < 2 then
        .error (.malformedTree ("operator " ++ k ++ ": expected at least 2 elements in array"))
      else krillPrimValidateList xs
  | _ => .error (.malformedTree ("operator " ++ k ++ ": expected array"))

/-- The recursive loop of `krillPrimValidateLog`, stopping at the first
invalid element. -/
def krillPrimValidateList : List JSVal → Except KrillErr Unit
  | [] => .ok ()
  | c :: cs => do
      krillPrimValidateSyntax c
      krillPrimValidateList cs

end

/-! ## Semantic (schema) validation -/

/-- `krillPrimValidateFieldType` on a relational leaf: first the operator's
own accepted-type check (`krillOps[key].types`, present exactly on the
relational operators), then — when a schema was supplied — field existence
and exact type agreement between the declared field type and the constant's
runtime type. -/
def krillPrimValidateFieldType (fieldtypes : Option (List (String × String)))
    (pred : JSVal) (k : String) : Except KrillErr Unit :=
  if isRelOp k &&
      !((opAcceptedTypes k).contains
        (jsTypeofOpt ((jsGet pred k) >>= fun w => jsGet w "1"))) then
    .error (.schemaViolation
      ("operator " ++ k ++ " cannot be applied to fields of type " ++
        jsTypeofOpt ((jsGet pred k) >>= fun w => jsGet w "1")))
  else
    match fieldtypes with
    | none => .ok ()
    | some fts =>
        match (jsGet pred k) >>= fun w => jsGet w "0" with
        | some (.str f) =>
            match fts.lookup f with
            | none => .error (.schemaViolation ("field " ++ f ++ " is not defined"))
            | some ft =>
                if ft != jsTypeofOpt ((jsGet pred k) >>= fun w => jsGet w "1") then
                  .error (.schemaViolation
                    ("field " ++ f ++ " value expected " ++ ft ++ " but got " ++
                      jsTypeofOpt ((jsGet pred k) >>= fun w => jsGet w "1")))
                else .ok ()
        | _ =>
            -- Unreachable for syntactically valid predicates, whose leaf
            -- fields are strings (a non-string field would be coerced to an
            -- object key by the JS `in` operator; not modelled further).
            .error (.schemaViolation "field is not a string")

mutual

/-- `krillPrimValidateTypes`: the `krillPrimWalk` traversal applying
`krillPrimValidateFieldType` at every relational leaf, stopping at the first
error.  A logical node's non-array payload has no `.length` to iterate
(unreachable for validated predicates). -/
def krillPrimValidateTypesW (fieldtypes : Option (List (String × String))) :
    JSVal → Except KrillErr Unit
  | .obj [(k, .arr cs)] =>
      if k == "and" || k == "or" then krillPrimValidateTypesList fieldtypes cs
      else krillPrimValidateFieldType fieldtypes (.obj [(k, .arr cs)]) k
  | pred =>
      if krillPrimTrivial pred then .ok ()
      else
        match krillPrimGetKey pred with
        | .error e => .error e
        | .ok k =>
            if k == "and" || k == "or" then .ok ()
            else krillPrimValidateFieldType fieldtypes pred k

def krillPrimValidateTypesList (fieldtypes : Option (List (String × String))) :
    List JSVal → Except KrillErr Unit
  | [] => .ok ()
  | c :: cs => do
      krillPrimValidateTypesW fieldtypes c
      krillPrimValidateTypesList fieldtypes cs

end

/-! ## Printers -/

/-- `sanityCheck`: count the keys, assert zero or one, and assert a present
key names a known operator; returns the count and the key (the key slot is
unused by callers when the count is zero, modelled as `""`). -/
def sanityCheck (pred : JSVal) : Except KrillErr (Nat × String) :=
  match jsKeys pred with
  | [] => .ok (0, "")
  | [k] => if isKrillOp k then .ok (1, k) else .error .assertFail
  | _ => .error .assertFail

/-- `krillPrimPrintRelCStyle`: `<field> <cstyle-token> <constant>`, the
constant double-quoted exactly when its runtime type is string. -/
def krillPrimPrintRelCStyle (pred : JSVal) (k : String) : String :=
  let v := jsGet pred k
  let f := v >>= fun w => jsGet w "0"
  let c := v >>= fun w => jsGet w "1"
  jsOptToString f ++ " " ++ opCStyleName k ++ " " ++
    (if jsTypeofOpt c == "string" then "\"" ++ jsOptToString c ++ "\""
     else jsOptToString c)

/-- `krillPrimPrintRelLDAP`: `ne` renders through `buildLdapNotEqualFilter`
(its `ldap` name is a function); every other relational operator renders as
`(<field><token><constant>)`. -/
def krillPrimPrintRelLDAP (pred : JSVal) (k : String) : String :=
  let v := jsGet pred k
  let a := jsOptToString (v >>= fun w => jsGet w "0")
  let b := jsOptToString (v >>= fun w => jsGet w "1")
  if k == "ne" then buildLdapNotEqualFilter a b
  else "(" ++ a ++ opLdapRelName k ++ b ++ ")"

mutual

/-- `krillPrimPrintCStyle`: sanity-check, render an empty predicate as `1`,
dispatch a single key to the operator's C-style printer.  A logical node's
non-array payload would make `.map` throw (host failure). -/
def krillPrimPrintCStyle : JSVal → Except KrillErr String
  | .obj [(k, .arr cs)] =>
      if isRelOp k then .ok (krillPrimPrintRelCStyle (.obj [(k, .arr cs)]) k)
      else if isLogOp k then do
        let ss ← krillPrimPrintCStyleList cs
        .ok (String.intercalate (" " ++ opCStyleName k ++ " ")
              (ss.map (fun s => "(" ++ s ++ ")")))
      else .error .assertFail
  | pred =>
      match sanityCheck pred with
      | .error e => .error e
      | .ok (0, _) => .ok "1"
      | .ok (_, k) =>
          if isRelOp k then .ok (krillPrimPrintRelCStyle pred k)
          else .error .assertFail

/-- The `pred[key].map` loop of `krillPrimPrintLogCStyle`, each element
printed recursively (parenthesisation and joining happen at the node). -/
def krillPrimPrintCStyleList : List JSVal → Except KrillErr (List String)
  | [] => .ok []
  | c :: cs => do
      let s ← krillPrimPrintCStyle c
      let rest ← krillPrimPrintCStyleList cs
      .ok (s :: rest)

end

mutual

/-- `krillPrimPrintLDAP`: sanity-check, assert exactly one key (an empty
predicate fails the assertion), dispatch to the operator's LDAP printer; a
logical node renders as `(<token><child><child>...)` with no separators. -/
def krillPrimPrintLDAP : JSVal → Except KrillErr String
  | .obj [(k, .arr cs)] =>
      if isRelOp k then .ok (krillPrimPrintRelLDAP (.obj [(k, .arr cs)]) k)
      else if isLogOp k then do
        let ss ← krillPrimPrintLDAPList cs
        .ok ("(" ++ opLdapLogName k ++ String.join ss ++ ")")
      else .error .assertFail
  | pred =>
      match sanityCheck pred with
      | .error e => .error e
      | .ok (0, _) => .error .assertFail
      | .ok (_, k) =>
          if isRelOp k then .ok (krillPrimPrintRelLDAP pred k)
          else .error .assertFail

/-- The `pred[key].map` loop of `krillPrimPrintLogLDAP`. -/
def krillPrimPrintLDAPList : List JSVal → Except KrillErr (List String)
  | [] => .ok []
  | c :: cs => do
      let s ← krillPrimPrintLDAP c
      let rest ← krillPrimPrintLDAPList cs
      .ok (s :: rest)

end

/-! ## Evaluation -/

/-- The relational-leaf arm of `krillPrimEval`: the ordering operators first
assert both operands are numbers, then every leaf asserts a known operator
and a two-element operand array before applying the operator's comparison
function. -/
def krillPrimEvalLeaf (pred : JSVal) (k : String) : Except KrillErr Bool :=
  let v := (jsGet pred k).getD .null
  let a := jsGet v "0"
  let b := jsGet v "1"
  if (k == "lt" || k == "le" || k == "gt" || k == "ge") &&
     (jsTypeofOpt a != "number" || jsTypeofOpt b != "number") then
    .error .assertFail
  else if !isKrillOp k then .error .assertFail
  else if jsLength v != some 2 then .error .assertFail
  else .ok (krillOpEvalFn k (a.getD .null) (b.getD .null))

mutual

/-- `krillPrimEval` on a predicate whose fields have been substituted:
`and` is a short-circuit conjunction over the operand array, `or` a
short-circuit disjunction, anything else a relational leaf.  A trivial
subtree reaching it (possible below a logical node) fails `krillPrimGetKey`.
A logical key over a non-array payload iterates an undefined `.length`
(no iterations), except a string payload whose character "elements" each
fail the known-operator assertion. -/
def krillPrimEval : JSVal → Except KrillErr Bool
  | .obj [("and", .arr cs)] => krillPrimEvalAnd cs
  | .obj [("or", .arr cs)] => krillPrimEvalOr cs
  | pred =>
      match krillPrimGetKey pred with
      | .error e => .error e
      | .ok k =>
          if k == "and" then
            match jsGet pred k with
            | some (.str s) => if s.isEmpty then .ok true else .error .assertFail
            | _ => .ok true
          else if k == "or" then
            match jsGet pred k with
            | some (.str s) => if s.isEmpty then .ok false else .error .assertFail
            | _ => .ok false
          else krillPrimEvalLeaf pred k

def krillPrimEvalAnd : List JSVal → Except KrillErr Bool
  | [] => .ok true
  | c :: cs => do
      let b ← krillPrimEval c
      if b then krillPrimEvalAnd cs else .ok false

def krillPrimEvalOr : List JSVal → Except KrillErr Bool
  | [] => .ok false
  | c :: cs => do
      let b ← krillPrimEval c
      if b then .ok true else krillPrimEvalOr cs

end

/-! ## Field substitution -/

/-- Rejoin dot-separated segments (the inverse of the segment split). -/
def joinDots : List String → String
  | [] => ""
  | [s] => s
  | s :: rest => s ++ "." ++ joinDots rest

/-- `jsprim.pluckv`, phrased over the dot-separated segments of the key:
own-property lookup of the joined remainder first; failing that, a key
containing a dot descends one segment.  Non-objects have no pluckable
properties (arrays are `typeof "object"` with index own-properties; dotted
descent into array elements is not modelled, no caller passes one). -/
def jsprimPluckSegs : JSVal → List String → Option JSVal
  | _, [] => none
  | .obj props, k1 :: rest =>
      (props.lookup (joinDots (k1 :: rest))).orElse (fun _ =>
        match rest with
        | [] => none
        | _ :: _ => (props.lookup k1).bind (fun v1 => jsprimPluckSegs v1 rest))
  | .arr xs, k1 :: rest => decStrToNat? (joinDots (k1 :: rest)) >>= fun i => xs[i]?
  | _, _ => none

/-- Split a character list at every dot (the segments `String.splitOn "."`
produces, phrased structurally). -/
def splitDots : List Char → List (List Char)
  | [] => [[]]
  | c :: cs =>
      if c = '.' then [] :: splitDots cs
      else
        match splitDots cs with
        | [] => [[c]]
        | seg :: rest => (c :: seg) :: rest

/-- `jsprim.pluck`: asserts the key is a string (callers guarantee it here)
and delegates to `pluckv`. -/
def jsprimPluck (xlate : JSVal) (field : String) : Option JSVal :=
  jsprimPluckSegs xlate ((splitDots field.data).map (fun cs => String.mk cs))

mutual

/-- `Predicate.prototype.replaceFields`'s walk over (a deep copy of) the
tree: at every relational leaf, look the field up in `xlate` with
`jsprim.pluck`, throw "no translation" when absent, otherwise write the
translation into operand slot 0.  The walk skips trivial subtrees and
recurses through logical nodes.  (A logical node's non-array payload and a
leaf with a non-array payload are unreachable for validated predicates; the
former iterates nothing and the latter fails pluck's string assertion.) -/
def krillPrimReplaceFieldsW (xlate : JSVal) : JSVal → Except KrillErr JSVal
  | .obj [(k, .arr cs)] =>
      if k == "and" || k == "or" then do
        let cs' ← krillPrimReplaceFieldsList xlate cs
        .ok (.obj [(k, .arr cs')])
      else
        match cs with
        | .str f :: rest =>
            match jsprimPluck xlate f with
            | none => .error (.missingTranslation f)
            | some val => .ok (.obj [(k, .arr (val :: rest))])
        | _ => .error .assertFail
  | pred =>
      if krillPrimTrivial pred then .ok pred
      else
        match krillPrimGetKey pred with
        | .error e => .error e
        | .ok k =>
            if k == "and" || k == "or" then .ok pred
            else .error .assertFail

def krillPrimReplaceFieldsList (xlate : JSVal) : List JSVal → Except KrillErr (List JSVal)
  | [] => .ok []
  | c :: cs => do
      let c' ← krillPrimReplaceFieldsW xlate c
      let rest ← krillPrimReplaceFieldsList xlate cs
      .ok (c' :: rest)

end

mutual

/-- The field names the `krillPrimWalk` traversal visits, in visit order
(left to right, depth first), duplicates retained; only string-typed field
slots are collected (all of them, for a validated predicate). -/
def krillPrimFieldList : JSVal → List String
  | .obj [(k, .arr cs)] =>
      if k == "and" || k == "or" then krillPrimFieldListL cs
      else
        match cs with
        | .str f :: _ => [f]
        | _ => []
  | _ => []

def krillPrimFieldListL : List JSVal → List String
  | [] => []
  | c :: cs => krillPrimFieldList c ++ krillPrimFieldListL cs

end

mutual

/-- The relational leaves the `krillPrimWalk` traversal visits, in visit
order, each paired with its operator key. -/
def krillPrimLeafList : JSVal → List (String × JSVal)
  | .obj [(k, .arr cs)] =>
      if k == "and" || k == "or" then krillPrimLeafListL cs
      else [(k, .obj [(k, .arr cs)])]
  | _ => []

def krillPrimLeafListL : List JSVal → List (String × JSVal)
  | [] => []
  | c :: cs => krillPrimLeafList c ++ krillPrimLeafListL cs

end

mutual

/-- Whether some logical node of the tree has a trivial (empty) operand —
a shape syntax validation accepts. -/
def hasTrivialLogChild : JSVal → Bool
  | .obj [(k, .arr cs)] =>
      if k == "and" || k == "or" then hasTrivialLogChildL cs
      else false
  | _ => false

def hasTrivialLogChildL : List JSVal → Bool
  | [] => false
  | c :: cs => krillPrimTrivial c || hasTrivialLogChild c || hasTrivialLogChildL cs

end

/-- The first field of a walk-ordered field list that has no translation. -/
def firstMissing (xlate : JSVal) : List String → Option String
  | [] => none
  | f :: fs => if (jsprimPluck xlate f).isNone then some f else firstMissing xlate fs

/-- The identity translation for a tree: every referenced field mapped to
its own name. -/
def identityXlate (pred : JSVal) : JSVal :=
  .obj ((krillPrimFieldList pred).dedup.map (fun f => (f, .str f)))

/-! ## The Predicate class and `createPredicate` -/

/-- `jsprim.deepCopy` clones the JSON-like structure node by node; on pure
values the clone is the identity.  (Its allocation behaviour — the reason
`replaceFields` may mutate the copy without touching the original — is
modelled explicitly in the heap section below.) -/
def jsprimDeepCopy (v : JSVal) : JSVal := v

/-- The `Predicate` class: the (deep-copied) tree and the optional field
type mapping. -/
structure Predicate where
  p_pred : JSVal
  p_types : Option (List (String × String))

/-- The `forEachKey` loop of `createPredicate`: every declared field type
must be string, number or boolean. -/
def checkTypeNames (fts : List (String × String)) : Except KrillErr Unit :=
  match fts.find? (fun kv =>
      kv.2 != "string" && kv.2 != "number" && kv.2 != "boolean") with
  | some kv => .error (.schemaViolation ("field " ++ kv.1 ++ ": unknown type " ++ kv.2))
  | none => .ok ()

/-- `createPredicate`: syntax validation, then (when a non-null `types` was
passed) the declared-type-name check and the semantic pass, and finally a
`Predicate` built from a deep copy of the input tree. -/
def createPredicate (pred : JSVal) (types : Option (List (String × String))) :
    Except KrillErr Predicate := do
  krillPrimValidateSyntax pred
  match types with
  | some fts => do
      checkTypeNames fts
      krillPrimValidateTypesW (some fts) pred
  | none => pure ()
  .ok { p_pred := jsprimDeepCopy pred, p_types := types }

/-- `Predicate.prototype.trivial`. -/
def Predicate.trivial (p : Predicate) : Bool := krillPrimTrivial p.p_pred

/-- `Predicate.prototype.toCStyleString`. -/
def Predicate.toCStyleString (p : Predicate) : Except KrillErr String :=
  krillPrimPrintCStyle p.p_pred

/-- `Predicate.prototype.toLDAPFilterString`: serialising a trivial
predicate throws before the printer is reached. -/
def Predicate.toLDAPFilterString (p : Predicate) : Except KrillErr String :=
  if p.trivial then .error .unsupportedRender
  else krillPrimPrintLDAP p.p_pred

/-- `Predicate.prototype.replaceFields`: deep-copy the tree, run the
substituting walk, wrap the result with the receiver's types. -/
def Predicate.replaceFields (p : Predicate) (xlate : JSVal) : Except KrillErr Predicate := do
  let t ← krillPrimReplaceFieldsW xlate (jsprimDeepCopy p.p_pred)
  .ok { p_pred := t, p_types := p.p_types }

/-- `Predicate.prototype.eval`: trivial predicates are true without looking
at the values; otherwise substitute the values for the fields and reduce. -/
def Predicate.eval (p : Predicate) (obj : JSVal) : Except KrillErr Bool :=
  if p.trivial then .ok true
  else do
    let q ← p.replaceFields obj
    krillPrimEval q.p_pred

/-! ## Heap-level model of `replaceFields`

`Predicate.prototype.replaceFields` relies on JavaScript object identity:
`jsprim.deepCopy` allocates fresh objects and the `krillPrimWalk` closure
then mutates operand slot 0 of the copied leaf arrays in place.  To state
that the receiver's tree is never touched, the objects are modelled with an
explicit address heap: a `Heap` is a list of allocated nodes, an `HAtom` is
either an immediate primitive or a reference, and mutation is an update of
one heap cell. -/

/-- A JavaScript value slot: a primitive held immediately, or a reference
to a heap-allocated array/object. -/
inductive HAtom where
  | hnum (n : Int)
  | hstr (s : String)
  | hbool (b : Bool)
  | hnull
  | href (a : Nat)
deriving Repr, DecidableEq

/-- A heap-allocated node: an array of slots or an object of keyed slots. -/
inductive HNode where
  | harr (elts : List HAtom)
  | hobj (props : List (String × HAtom))
deriving Repr, DecidableEq

/-- The heap: node at address `a` is entry `a`; allocation appends. -/
abbrev Heap := List HNode

mutual

/-- Read the pure JSON value an atom denotes, following references
(`fuel` bounds the reference depth; a closed acyclic heap always has
enough). -/
def decodeAtom (h : Heap) : Nat → HAtom → Option JSVal
  | _, .hnum n => some (.num n)
  | _, .hstr s => some (.str s)
  | _, .hbool b => some (.bool b)
  | _, .hnull => some .null
  | 0, .href _ => none
  | fuel + 1, .href a =>
      match h[a]? with
      | none => none
      | some node => decodeNode h fuel node

def decodeNode (h : Heap) : Nat → HNode → Option JSVal
  | 0, _ => none
  | fuel + 1, .harr xs => (decodeList h fuel xs).map .arr
  | fuel + 1, .hobj ps => (decodeProps h fuel ps).map .obj

def decodeList (h : Heap) : Nat → List HAtom → Option (List JSVal)
  | _, [] => some []
  | 0, _ :: _ => none
  | fuel + 1, x :: xs =>
      match decodeAtom h fuel x with
      | none => none
      | some v =>
          match decodeList h fuel xs with
          | none => none
          | some vs => some (v :: vs)

def decodeProps (h : Heap) :
    Nat → List (String × HAtom) → Option (List (String × JSVal))
  | _, [] => some []
  | 0, _ :: _ => none
  | fuel + 1, (k, x) :: xs =>
      match decodeAtom h fuel x with
      | none => none
      | some v =>
          match decodeProps h fuel xs with
          | none => none
          | some vs => some ((k, v) :: vs)

end

mutual

/-- `jsprim.deepCopy` at the heap level: primitives are returned as they
are; a referenced array/object is copied bottom-up, every copied node
allocated fresh at the end of the heap.  `none` models the cyclic-object
throw (fuel exhaustion) or a dangling reference. -/
def hCopyAtom (h : Heap) : Nat → HAtom → Option (Heap × HAtom)
  | _, .hnum n => some (h, .hnum n)
  | _, .hstr s => some (h, .hstr s)
  | _, .hbool b => some (h, .hbool b)
  | _, .hnull => some (h, .hnull)
  | 0, .href _ => none
  | fuel + 1, .href a =>
      match h[a]? with
      | none => none
      | some (.harr xs) =>
          match hCopyList h fuel xs with
          | none => none
          | some (h1, xs') => some (h1 ++ [HNode.harr xs'], .href h1.length)
      | some (.hobj ps) =>
          match hCopyProps h fuel ps with
          | none => none
          | some (h1, ps') => some (h1 ++ [HNode.hobj ps'], .href h1.length)

def hCopyList (h : Heap) : Nat → List HAtom → Option (Heap × List HAtom)
  | _, [] => some (h, [])
  | 0, _ :: _ => none
  | fuel + 1, x :: xs =>
      match hCopyAtom h fuel x with
      | none => none
      | some (h1, x1) =>
          match hCopyList h1 fuel xs with
          | none => none
          | some (h2, xs1) => some (h2, x1 :: xs1)

def hCopyProps (h : Heap) :
    Nat → List (String × HAtom) → Option (Heap × List (String × HAtom))
  | _, [] => some (h, [])
  | 0, _ :: _ => none
  | fuel + 1, (k, x) :: xs =>
      match hCopyAtom h fuel x with
      | none => none
      | some (h1, x1) =>
          match hCopyProps h1 fuel xs with
          | none => none
          | some (h2, xs1) => some (h2, (k, x1) :: xs1)

end

mutual

/-- The `krillPrimWalk` traversal of `Predicate.prototype.replaceFields`
at the heap level: skip a trivial node, recurse through a logical node's
operand array, and at a relational leaf replace slot 0 of the operand
array — an in-place update of that one heap cell — with the field's
translation.  Translations are looked up by the literal field name
(`jsprim.pluck`'s dotted descent is not needed at this level).  `fuel`
bounds the traversal depth; running out is a host failure, excluded by
the theorems' success hypotheses. -/
def hMutWalk (xlate : List (String × HAtom)) : Nat → Heap → HAtom → Except KrillErr Heap
  | 0, _, _ => .error .assertFail
  | _ + 1, h, .hnum _ => .ok h
  | _ + 1, h, .hstr _ => .ok h
  | _ + 1, h, .hbool _ => .ok h
  | _ + 1, h, .hnull => .ok h
  | fuel + 1, h, .href a =>
      match h[a]? with
      | none => .error .assertFail
      | some (.harr _) => .ok h          -- array node: no enumerable op key reached by the walk's leaf branch matters here; trivial arrays return, and validated predicates are objects
      | some (.hobj []) => .ok h         -- trivial: walk returns
      | some (.hobj [(k, payload)]) =>
          if k == "and" || k == "or" then
            match payload with
            | .href pa =>
                match h[pa]? with
                | some (.harr cs) => hMutWalkList xlate fuel h cs
                | _ => .ok h             -- non-array payload: `.length` is undefined, no iterations
            | _ => .ok h
          else
            match payload with
            | .href pa =>
                match h[pa]? with
                | some (.harr (f :: rest)) =>
                    match f with
                    | .hstr fs =>
                        match xlate.lookup fs with
                        | none => .error (.missingTranslation fs)
                        | some val => .ok (h.set pa (.harr (val :: rest)))
                    | _ => .error .assertFail   -- pluck asserts a string key
                | _ => .error .assertFail       -- `pred[key][0]` unusable
            | _ => .error .assertFail
      | some (.hobj (_ :: _ :: _)) => .error (.malformedTree "expected one key")

def hMutWalkList (xlate : List (String × HAtom)) :
    Nat → Heap → List HAtom → Except KrillErr Heap
  | _, h, [] => .ok h
  | 0, _, _ :: _ => .error .assertFail
  | fuel + 1, h, c :: cs =>
      match hMutWalk xlate fuel h c with
      | .error e => .error e
      | .ok h1 => hMutWalkList xlate fuel h1 cs

end

/-- `Predicate.prototype.replaceFields` at the heap level: deep-copy the
receiver's tree, then run the substituting walk over the copy, returning
the mutated heap and the copy's root.  (A failed copy models the
cyclic-object throw of `jsprim.deepCopy`.) -/
def hReplaceFields (xlate : List (String × HAtom)) (cf mf : Nat) (h : Heap)
    (r : HAtom) : Except KrillErr (Heap × HAtom) :=
  match hCopyAtom h cf r with
  | none => .error .assertFail
  | some (h1, r1) =>
      match hMutWalk xlate mf h1 r1 with
      | .error e => .error e
      | .ok h2 => .ok (h2, r1)

/-- Every reference of the atom is at address `n` or above. -/
def atomGE (n : Nat) : HAtom → Prop
  | .href a => n ≤ a
  | _ => True

/-- Every reference of the atom is below address `n`. -/
def atomLT (n : Nat) : HAtom → Prop
  | .href a => a < n
  | _ => True

/-- Every slot of the node references address `n` or above. -/
def nodeGE (n : Nat) : HNode → Prop
  | .harr xs => ∀ x ∈ xs, atomGE n x
  | .hobj ps => ∀ p ∈ ps, atomGE n p.2

/-- Every slot of the node references below address `n`. -/
def nodeLT (n : Nat) : HNode → Prop
  | .harr xs => ∀ x ∈ xs, atomLT n x
  | .hobj ps => ∀ p ∈ ps, atomLT n p.2

/-- A closed heap: every allocated node references only allocated
addresses. -/
def heapClosed (h : Heap) : Prop := ∀ node ∈ h, nodeLT h.length node

/-- `h'` holds the same nodes as `h` at every address below `n`. -/
def heapAgreeBelow (n : Nat) (h h' : Heap) : Prop :=
  ∀ a, a < n → h'[a]? = h[a]?

/-- Every node allocated at address `n` or above references only addresses
`n` or above (the fresh region is self-contained). -/
def heapFreshGE (n : Nat) (h : Heap) : Prop :=
  ∀ a node, n ≤ a → h[a]? = some node → nodeGE n node

/-- All translation values are immediate primitives (the library's callers
substitute field names and scalar values). -/
def xlatePrim (xlate : List (String × HAtom)) : Prop :=
  ∀ p ∈ xlate, ∀ a, p.2 ≠ HAtom.href a

/-! ## Statement helpers -/

/-- The malformation classes of the claims, minus the empty array: an
unknown operator key, a relational operand array without exactly two
elements, a logical operand array shorter than two, a non-string field
name, or a non-scalar constant. -/
def claimMalformed : JSVal → Bool
  | .obj [(k, .arr xs)] =>
      if !isKrillOp k then true
      else if isRelOp k then
        match xs with
        | [f, c] =>
            jsTypeof f != "string" ||
            (jsTypeof c != "number" && jsTypeof c != "string" && jsTypeof c != "boolean")
        | _ => true
      else decide (xs.length < 2)
  | .obj [(k, _)] => !isKrillOp k
  | _ => false

/-! ## Theorems -/

theorem createPredicate_error_of_validate {pred : JSVal} {e : KrillErr}
    (ts : Option (List (String × String)))
    (h : krillPrimValidateSyntax pred = .error e) :
    createPredicate pred ts = .error e := by
  cases ts <;> · unfold createPredicate; rw [h]; rfl

theorem isRelOp_cases {k : String} (h : isRelOp k = true) :
    k = "le" ∨ k = "lt" ∨ k = "ge" ∨ k = "gt" ∨ k = "eq" ∨ k = "ne" := by
  simp [isRelOp, relOpNames] at h; tauto

theorem isLogOp_cases {k : String} (h : isLogOp k = true) :
    k = "and" ∨ k = "or" := by
  simp [isLogOp, logOpNames] at h; tauto

theorem isRelOp_false_of_isLogOp {k : String} (h : isLogOp k = true) :
    isRelOp k = false := by
  rcases isLogOp_cases h with h2 | h2 <;> subst h2 <;> rfl

theorem jsTypeof_number {a : JSVal} (h : jsTypeof a = "number") :
    ∃ n, a = JSVal.num n := by
  cases a <;> simp_all [jsTypeof]

theorem validateSyntax_error_of_claimMalformed (pred : JSVal)
    (h : claimMalformed pred = true) :
    ∃ msg, krillPrimValidateSyntax pred = .error (.malformedTree msg) := by
  match pred with
  | .obj [(k, v)] =>
      by_cases hk : isKrillOp k = true
      case neg =>
        refine ⟨"unknown operator " ++ k, ?_⟩
        simp only [Bool.not_eq_true] at hk
        simp [krillPrimValidateSyntax, hk]
      case pos =>
        have hrl : isRelOp k = true ∨ isLogOp k = true := by
          simpa [isKrillOp] using hk
        match v with
        | .arr xs =>
            rcases hrl with hrel | hlog
            · match xs with
              | [] =>
                  exact ⟨k ++ " array must have 2 elements",
                    by simp [krillPrimValidateSyntax, hk, hrel,
                      krillPrimValidateRel, jsTruthy]⟩
              | [_] =>
                  exact ⟨k ++ " array must have 2 elements",
                    by simp [krillPrimValidateSyntax, hk, hrel,
                      krillPrimValidateRel, jsTruthy]⟩
              | [f, c] =>
                  have h2 : (jsTypeof f != "string") = true ∨
                      (jsTypeof c != "number" && jsTypeof c != "string" &&
                        jsTypeof c != "boolean") = true := by
                    have h3 : claimMalformed (.obj [(k, .arr [f, c])]) =
                        (jsTypeof f != "string" ||
                          (jsTypeof c != "number" && jsTypeof c != "string" &&
                            jsTypeof c != "boolean")) := by
                      simp [claimMalformed, hk, hrel]
                    rw [h3] at h
                    exact Bool.or_eq_true_iff.mp h
                  by_cases hf : (jsTypeof f != "string") = true
                  · exact ⟨"field " ++ k ++ " is not a string",
                      by simp [krillPrimValidateSyntax, hk, hrel,
                        krillPrimValidateRel, jsTruthy, hf]⟩
                  · have hc : (jsTypeof c != "number" && jsTypeof c != "string" &&
                        jsTypeof c != "boolean") = true := by tauto
                    have hf' : (jsTypeof f != "string") = false :=
                      Bool.not_eq_true _ ▸ eq_false_of_ne_true hf
                    exact ⟨"field " ++ k ++ " is not a string, number, or boolean",
                      by simp [krillPrimValidateSyntax, hk, hrel,
                        krillPrimValidateRel, jsTruthy, hf', hc]⟩
              | _ :: _ :: _ :: _ =>
                  exact ⟨k ++ " array must have 2 elements",
                    by simp [krillPrimValidateSyntax, hk, hrel,
                      krillPrimValidateRel, jsTruthy]⟩
            · have hrel' := isRelOp_false_of_isLogOp hlog
              have hlen : xs.length < 2 := by
                simpa [claimMalformed, hk, hrel'] using h
              match xs, hlen with
              | [], _ =>
                  exact ⟨"operator " ++ k ++ ": expected at least 2 elements in array",
                    by simp [krillPrimValidateSyntax, hk, hrel', hlog,
                      krillPrimValidateLogPayload, jsTruthy]⟩
              | [x], _ =>
                  exact ⟨"operator " ++ k ++ ": expected at least 2 elements in array",
                    by simp [krillPrimValidateSyntax, hk, hrel', hlog,
                      krillPrimValidateLogPayload, jsTruthy]⟩
        | .num _ | .str _ | .bool _ | .null | .obj _ =>
            exact absurd h (by simp [claimMalformed, hk])
  | .obj [] => exact absurd h (by simp [claimMalformed])
  | .obj (_ :: _ :: _) => exact absurd h (by simp [claimMalformed])
  | .arr _ => exact absurd h (by simp [claimMalformed])
  | .num _ => exact absurd h (by simp [claimMalformed])
  | .str _ => exact absurd h (by simp [claimMalformed])
  | .bool _ => exact absurd h (by simp [claimMalformed])
  | .null => exact absurd h (by simp [claimMalformed])

/-- C1 (amended): for every tree in the claim's malformation classes other
than the empty array — unknown operator key, wrong operand arity, a
non-string field name, a non-scalar constant — `createPredicate` fails with
a `MalformedTree` error (for any optional schema) and never constructs a
`Predicate`. -/
theorem C1_amended_malformed_rejected (pred : JSVal)
    (ts : Option (List (String × String))) (h : claimMalformed pred = true) :
    ∃ msg, createPredicate pred ts = .error (.malformedTree msg) := by
  obtain ⟨msg, hmsg⟩ := validateSyntax_error_of_claimMalformed pred h
  exact ⟨msg, createPredicate_error_of_validate ts hmsg⟩

/-- C1 witness: a relational leaf with wrong arity is rejected. -/
theorem C1_amended_witness :
    claimMalformed (.obj [("eq", .arr [.str "foo"])]) = true ∧
    ∃ msg, createPredicate (.obj [("eq", .arr [.str "foo"])]) none =
      .error (.malformedTree msg) :=
  ⟨rfl, C1_amended_malformed_rejected _ none rfl⟩

/-- C1 counterexample: the empty array is not rejected — `jsprim.isEmpty`
finds no enumerable key, so `createPredicate` accepts it as a trivial
predicate, contradicting the claim that every empty array fails with
`MalformedTree`. -/
theorem C1_counterexample :
    createPredicate (.arr []) none =
      .ok { p_pred := .arr [], p_types := none } := rfl

/-- C7: serialising any trivial predicate as an LDAP filter fails with the
`UnsupportedRender` error before the printer is ever consulted. -/
theorem C7_trivial_ldap_error (p : Predicate) (h : p.trivial = true) :
    p.toLDAPFilterString = .error .unsupportedRender := by
  simp [Predicate.toLDAPFilterString, h]

/-- C7 witness: the predicate built from the empty tree. -/
theorem C7_trivial_ldap_error_witness :
    ∃ p, createPredicate (.obj []) none = .ok p ∧ p.trivial = true ∧
      p.toLDAPFilterString = .error .unsupportedRender :=
  ⟨_, rfl, rfl, C7_trivial_ldap_error _ rfl⟩

theorem jsGet_singleton_obj (k : String) (v : JSVal) :
    jsGet (.obj [(k, v)]) k = some v := by
  simp [jsGet, List.lookup]

theorem jsGet_pair_zero (f c : JSVal) : jsGet (.arr [f, c]) "0" = some f := rfl

theorem jsGet_pair_one (f c : JSVal) : jsGet (.arr [f, c]) "1" = some c := rfl

theorem trivial_jsKeys_nil {v : JSVal} (h : krillPrimTrivial v = true) :
    jsKeys v = [] := by
  cases v <;> simp_all [krillPrimTrivial, jsKeys]
  case str s => simp [String.isEmpty_iff] at h; simp [h]

theorem printCStyle_trivial {v : JSVal} (h : krillPrimTrivial v = true) :
    krillPrimPrintCStyle v = .ok "1" := by
  have hk := trivial_jsKeys_nil h
  match v, hk with
  | .num _, _ | .str _, _ | .bool _, _ | .null, _ =>
      simp_all [krillPrimPrintCStyle, sanityCheck]
  | .arr xs, hk =>
      simp [jsKeys] at hk
      subst hk
      rfl
  | .obj props, hk =>
      simp [jsKeys] at hk
      subst hk
      rfl

/-- C6: the C-style printer renders a trivial tree as the literal `1`, a
relational leaf as `<field> <infixToken> <constant>` with string constants
double-quoted and numeric/boolean constants bare, and a logical node as its
children each individually printed, each wrapped in parentheses, joined by
the infix token surrounded by single spaces; in particular the spec's three
examples print as stated. -/
theorem C6_cstyle_rendering :
    (∀ p : Predicate, p.trivial = true → p.toCStyleString = .ok "1") ∧
    (∀ (k : String) (f c : JSVal), isRelOp k = true →
      krillPrimPrintCStyle (.obj [(k, .arr [f, c])]) =
        .ok (jsValToString f ++ " " ++ opCStyleName k ++ " " ++
          (if jsTypeof c = "string" then "\"" ++ jsValToString c ++ "\""
           else jsValToString c))) ∧
    (∀ (k : String) (cs : List JSVal) (ss : List String), isLogOp k = true →
      krillPrimPrintCStyleList cs = .ok ss →
      krillPrimPrintCStyle (.obj [(k, .arr cs)]) =
        .ok (String.intercalate (" " ++ opCStyleName k ++ " ")
          (ss.map (fun s => "(" ++ s ++ ")")))) ∧
    (do let p ← createPredicate (.obj []) none
        p.toCStyleString) = .ok "1" ∧
    (do let p ← createPredicate (.obj [("eq", .arr [.str "zonename", .str "bar"])]) none
        p.toCStyleString) = .ok "zonename == \"bar\"" ∧
    (do let p ← createPredicate
          (.obj [("and", .arr [.obj [], .obj [("eq", .arr [.str "latency", .num 23])]])]) none
        p.toCStyleString) = .ok "(1) && (latency == 23)" := by
  refine ⟨?_, ?_, ?_, rfl, rfl, rfl⟩
  · intro p h
    exact printCStyle_trivial h
  · intro k f c hrel
    simp [krillPrimPrintCStyle, hrel, krillPrimPrintRelCStyle, jsGet_singleton_obj,
      jsGet_pair_zero, jsGet_pair_one, jsTypeofOpt, jsOptToString]
  · intro k cs ss hlog hss
    have hrel' := isRelOp_false_of_isLogOp hlog
    simp [krillPrimPrintCStyle, hrel', hlog, hss]
    try rfl

/-- C6 witness: each quantified part instantiated — a trivial predicate, a
relational leaf with a string constant, a relational leaf with a numeric
constant, and a logical node. -/
theorem C6_cstyle_rendering_witness :
    (Predicate.mk (.obj []) none).toCStyleString = .ok "1" ∧
    krillPrimPrintCStyle (.obj [("eq", .arr [.str "a", .str "x"])]) = .ok "a == \"x\"" ∧
    krillPrimPrintCStyle (.obj [("gt", .arr [.str "b", .num 1])]) = .ok "b > 1" ∧
    krillPrimPrintCStyle
        (.obj [("or", .arr [.obj [("eq", .arr [.str "a", .str "x"])],
                            .obj [("gt", .arr [.str "b", .num 1])]])]) =
      .ok "(a == \"x\") || (b > 1)" := by
  refine ⟨C6_cstyle_rendering.1 _ rfl, ?_, ?_, ?_⟩
  · have h := C6_cstyle_rendering.2.1 "eq" (.str "a") (.str "x") rfl
    simpa using h
  · have h := C6_cstyle_rendering.2.1 "gt" (.str "b") (.num 1) rfl
    simpa using h
  · have h := C6_cstyle_rendering.2.2.1 "or"
      [.obj [("eq", .arr [.str "a", .str "x"])], .obj [("gt", .arr [.str "b", .num 1])]]
      ["a == \"x\"", "b > 1"] rfl rfl
    simpa using h

/-- C5: the LDAP printer renders a relational leaf other than `ne` as
`(field<op>value)`, renders an `ne` leaf as the negated-equality idiom
`(!(field=value))`, and renders a logical node in prefix form
`(<opToken><child1><child2>...)` with no separators between the children;
in particular `toLDAPFilterString` on the tree `ne [a, b]` yields
`(!(a=b))`. -/
theorem C5_ldap_rendering :
    (∀ (k : String) (f c : JSVal), isRelOp k = true → k ≠ "ne" →
      krillPrimPrintLDAP (.obj [(k, .arr [f, c])]) =
        .ok ("(" ++ jsValToString f ++ opLdapRelName k ++ jsValToString c ++ ")")) ∧
    (∀ f c : JSVal,
      krillPrimPrintLDAP (.obj [("ne", .arr [f, c])]) =
        .ok ("(!(" ++ jsValToString f ++ "=" ++ jsValToString c ++ "))")) ∧
    (∀ (k : String) (cs : List JSVal) (ss : List String), isLogOp k = true →
      krillPrimPrintLDAPList cs = .ok ss →
      krillPrimPrintLDAP (.obj [(k, .arr cs)]) =
        .ok ("(" ++ opLdapLogName k ++ String.join ss ++ ")")) ∧
    (do let p ← createPredicate (.obj [("ne", .arr [.str "a", .str "b"])]) none
        p.toLDAPFilterString) = .ok "(!(a=b))" := by
  refine ⟨?_, ?_, ?_, rfl⟩
  · intro k f c hrel hne
    have hne' : (k == "ne") = false := by simp [hne]
    simp [krillPrimPrintLDAP, hrel, krillPrimPrintRelLDAP, jsGet_singleton_obj,
      jsGet_pair_zero, jsGet_pair_one, jsOptToString, hne']
  · intro f c
    simp [krillPrimPrintLDAP, krillPrimPrintRelLDAP, jsGet_singleton_obj,
      jsGet_pair_zero, jsGet_pair_one, jsOptToString, buildLdapNotEqualFilter,
      isRelOp, relOpNames]
  · intro k cs ss hlog hss
    have hrel' := isRelOp_false_of_isLogOp hlog
    simp [krillPrimPrintLDAP, hrel', hlog, hss]
    try rfl

theorem evalAnd_all_true {cs : List JSVal}
    (h : ∀ x ∈ cs, krillPrimEval x = .ok true) :
    krillPrimEvalAnd cs = .ok true := by
  induction cs with
  | nil => rfl
  | cons c cs ih =>
      have hc := h c (by simp)
      have ih' := ih (fun x hx => h x (by simp [hx]))
      unfold krillPrimEvalAnd
      rw [hc]
      exact ih'

theorem evalAnd_false_prefix {cs1 : List JSVal} {c : JSVal} (cs2 : List JSVal)
    (h1 : ∀ x ∈ cs1, krillPrimEval x = .ok true)
    (hc : krillPrimEval c = .ok false) :
    krillPrimEvalAnd (cs1 ++ c :: cs2) = .ok false := by
  induction cs1 with
  | nil =>
      unfold krillPrimEvalAnd
      simp only [List.nil_append]
      rw [hc]
      rfl
  | cons a cs1 ih =>
      have ha := h1 a (by simp)
      have ih' := ih (fun x hx => h1 x (by simp [hx]))
      unfold krillPrimEvalAnd
      simp only [List.cons_append]
      rw [ha]
      exact ih'

theorem evalOr_all_false {cs : List JSVal}
    (h : ∀ x ∈ cs, krillPrimEval x = .ok false) :
    krillPrimEvalOr cs = .ok false := by
  induction cs with
  | nil => rfl
  | cons c cs ih =>
      have hc := h c (by simp)
      have ih' := ih (fun x hx => h x (by simp [hx]))
      unfold krillPrimEvalOr
      rw [hc]
      exact ih'

theorem evalOr_true_prefix {cs1 : List JSVal} {c : JSVal} (cs2 : List JSVal)
    (h1 : ∀ x ∈ cs1, krillPrimEval x = .ok false)
    (hc : krillPrimEval c = .ok true) :
    krillPrimEvalOr (cs1 ++ c :: cs2) = .ok true := by
  induction cs1 with
  | nil =>
      unfold krillPrimEvalOr
      simp only [List.nil_append]
      rw [hc]
      rfl
  | cons a cs1 ih =>
      have ha := h1 a (by simp)
      have ih' := ih (fun x hx => h1 x (by simp [hx]))
      unfold krillPrimEvalOr
      simp only [List.cons_append]
      rw [ha]
      exact ih'

/-- C2: evaluation semantics.  A trivial predicate evaluates true for every
value assignment without consulting it; a non-trivial predicate evaluates by
reducing its substituted tree; in the reduction an `and` node is a
short-circuit conjunction (a false operand after true ones decides the node
false whatever follows, all-true operands make it true), an `or` node a
short-circuit disjunction (dually), and a relational leaf applies the
operator's comparison function to the substituted value and the constant
(the ordering operators after their both-numbers assertion). -/
theorem C2_eval_semantics :
    (∀ (p : Predicate) (values : JSVal), p.trivial = true →
      p.eval values = .ok true) ∧
    (∀ (p : Predicate) (values : JSVal) (q : Predicate), p.trivial = false →
      p.replaceFields values = .ok q →
      p.eval values = krillPrimEval q.p_pred) ∧
    (∀ (cs1 : List JSVal) (c : JSVal) (cs2 : List JSVal),
      (∀ x ∈ cs1, krillPrimEval x = .ok true) → krillPrimEval c = .ok false →
      krillPrimEval (.obj [("and", .arr (cs1 ++ c :: cs2))]) = .ok false) ∧
    (∀ cs : List JSVal, (∀ x ∈ cs, krillPrimEval x = .ok true) →
      krillPrimEval (.obj [("and", .arr cs)]) = .ok true) ∧
    (∀ (cs1 : List JSVal) (c : JSVal) (cs2 : List JSVal),
      (∀ x ∈ cs1, krillPrimEval x = .ok false) → krillPrimEval c = .ok true →
      krillPrimEval (.obj [("or", .arr (cs1 ++ c :: cs2))]) = .ok true) ∧
    (∀ cs : List JSVal, (∀ x ∈ cs, krillPrimEval x = .ok false) →
      krillPrimEval (.obj [("or", .arr cs)]) = .ok false) ∧
    (∀ (k : String) (a c : JSVal), isRelOp k = true →
      ((k = "lt" ∨ k = "le" ∨ k = "gt" ∨ k = "ge") →
        jsTypeof a = "number" ∧ jsTypeof c = "number") →
      krillPrimEval (.obj [(k, .arr [a, c])]) = .ok (krillOpEvalFn k a c)) := by
  refine ⟨?_, ?_, ?_, ?_, ?_, ?_, ?_⟩
  · intro p values h
    simp [Predicate.eval, h]
  · intro p values q h hq
    unfold Predicate.eval
    rw [h, hq]
    rfl
  · intro cs1 c cs2 h1 hc
    exact evalAnd_false_prefix cs2 h1 hc
  · intro cs h
    exact evalAnd_all_true h
  · intro cs1 c cs2 h1 hc
    exact evalOr_true_prefix cs2 h1 hc
  · intro cs h
    exact evalOr_all_false h
  · intro k a c hrel hord
    rcases isRelOp_cases hrel with h6 | h6 | h6 | h6 | h6 | h6 <;> subst h6
    case _ =>  -- le
      obtain ⟨m, hm⟩ := jsTypeof_number (hord (by tauto)).1
      obtain ⟨n, hn⟩ := jsTypeof_number (hord (by tauto)).2
      subst hm hn
      rfl
    case _ =>  -- lt
      obtain ⟨m, hm⟩ := jsTypeof_number (hord (by tauto)).1
      obtain ⟨n, hn⟩ := jsTypeof_number (hord (by tauto)).2
      subst hm hn
      rfl
    case _ =>  -- ge
      obtain ⟨m, hm⟩ := jsTypeof_number (hord (by tauto)).1
      obtain ⟨n, hn⟩ := jsTypeof_number (hord (by tauto)).2
      subst hm hn
      rfl
    case _ =>  -- gt
      obtain ⟨m, hm⟩ := jsTypeof_number (hord (by tauto)).1
      obtain ⟨n, hn⟩ := jsTypeof_number (hord (by tauto)).2
      subst hm hn
      rfl
    case _ => rfl  -- eq
    case _ => rfl  -- ne

/-- C2 witness: each part instantiated — a trivial predicate evaluated
against a value object it never consults, the substituted-tree reduction of
a one-leaf predicate, a short-circuited `and` whose tail would fail, an
all-true `and`, a short-circuited `or` whose tail would fail, an all-false
`or`, and a `ge` leaf applying the numeric comparison. -/
theorem C2_eval_semantics_witness :
    (Predicate.mk (.obj []) none).eval (.obj [("x", .num 1)]) = .ok true ∧
    (Predicate.mk (.obj [("eq", .arr [.str "a", .num 3])]) none).eval
      (.obj [("a", .num 3)]) =
      krillPrimEval (.obj [("eq", .arr [.num 3, .num 3])]) ∧
    krillPrimEvalAnd
      ([.obj [("eq", .arr [.num 1, .num 1])]] ++
        .obj [("eq", .arr [.num 1, .num 2])] :: [.obj []]) = .ok false ∧
    krillPrimEvalAnd [.obj [("eq", .arr [.num 1, .num 1])],
      .obj [("ne", .arr [.num 1, .num 2])]] = .ok true ∧
    krillPrimEvalOr
      ([.obj [("eq", .arr [.num 1, .num 2])]] ++
        .obj [("eq", .arr [.num 1, .num 1])] :: [.obj []]) = .ok true ∧
    krillPrimEvalOr [.obj [("eq", .arr [.num 1, .num 2])],
      .obj [("ne", .arr [.num 1, .num 1])]] = .ok false ∧
    krillPrimEval (.obj [("ge", .arr [.num 15, .num 15])]) =
      .ok (krillOpEvalFn "ge" (.num 15) (.num 15)) := by
  have hone : ∀ x ∈ [JSVal.obj [("eq", .arr [.num 1, .num 1])]],
      krillPrimEval x = .ok true := by
    intro x hx
    simp at hx
    subst hx
    rfl
  have htwo : ∀ x ∈ [JSVal.obj [("eq", .arr [.num 1, .num 2])]],
      krillPrimEval x = .ok false := by
    intro x hx
    simp at hx
    subst hx
    rfl
  have hallt : ∀ x ∈ [JSVal.obj [("eq", .arr [.num 1, .num 1])],
      .obj [("ne", .arr [.num 1, .num 2])]], krillPrimEval x = .ok true := by
    intro x hx
    simp at hx
    rcases hx with h | h <;> subst h <;> rfl
  have hallf : ∀ x ∈ [JSVal.obj [("eq", .arr [.num 1, .num 2])],
      .obj [("ne", .arr [.num 1, .num 1])]], krillPrimEval x = .ok false := by
    intro x hx
    simp at hx
    rcases hx with h | h <;> subst h <;> rfl
  refine ⟨C2_eval_semantics.1 (Predicate.mk (.obj []) none) _ rfl, ?_, ?_, ?_, ?_, ?_, ?_⟩
  · exact C2_eval_semantics.2.1 (Predicate.mk (.obj [("eq", .arr [.str "a", .num 3])]) none)
      (.obj [("a", .num 3)])
      (Predicate.mk (.obj [("eq", .arr [.num 3, .num 3])]) none) rfl rfl
  · have h := C2_eval_semantics.2.2.1 [JSVal.obj [("eq", .arr [.num 1, .num 1])]]
      (.obj [("eq", .arr [.num 1, .num 2])]) [.obj []] hone rfl
    unfold krillPrimEval at h
    exact h
  · have h := C2_eval_semantics.2.2.2.1 _ hallt
    unfold krillPrimEval at h
    exact h
  · have h := C2_eval_semantics.2.2.2.2.1 [JSVal.obj [("eq", .arr [.num 1, .num 2])]]
      (.obj [("eq", .arr [.num 1, .num 1])]) [.obj []] htwo rfl
    unfold krillPrimEval at h
    exact h
  · have h := C2_eval_semantics.2.2.2.2.2.1 _ hallf
    unfold krillPrimEval at h
    exact h
  · exact C2_eval_semantics.2.2.2.2.2.2 "ge" (.num 15) (.num 15) rfl
      (fun _ => ⟨rfl, rfl⟩)

theorem JSVal.strongInduction {P : JSVal → Prop}
    (ind : ∀ v, (∀ w, sizeOf w < sizeOf v → P w) → P v) : ∀ v, P v := by
  have H : ∀ n v, sizeOf v < n → P v := by
    intro n
    induction n with
    | zero => intro v hv; exact absurd hv (by omega)
    | succ n ih => intro v _ ; exact ind v (fun w hw => ih w (by omega))
  intro v
  exact ind v (fun w hw => H (sizeOf v) w hw)

theorem sizeOf_child {c : JSVal} {k : String} {cs : List JSVal} (h : c ∈ cs) :
    sizeOf c < sizeOf (JSVal.obj [(k, JSVal.arr cs)]) := by
  have h1 := List.sizeOf_lt_of_mem h
  simp only [JSVal.obj.sizeOf_spec, JSVal.arr.sizeOf_spec, List.cons.sizeOf_spec,
    List.nil.sizeOf_spec, Prod.mk.sizeOf_spec]
  omega

theorem validateList_ok_mem {cs : List JSVal}
    (h : krillPrimValidateList cs = .ok ()) :
    ∀ c ∈ cs, krillPrimValidateSyntax c = .ok () := by
  induction cs with
  | nil => intro c hc; cases hc
  | cons a cs ih =>
      intro c hc
      unfold krillPrimValidateList at h
      cases ha : krillPrimValidateSyntax a with
      | error e =>
          rw [ha] at h
          exact absurd h (by intro hcon; exact Except.noConfusion hcon)
      | ok u =>
          rw [ha] at h
          rcases List.mem_cons.mp hc with hc2 | hc2
          · subst hc2; cases u; exact ha
          · cases u
            exact ih h c hc2

theorem validateRel_ok_inversion {v : JSVal} {k : String}
    (h : krillPrimValidateRel v k = .ok ()) :
    ∃ fs c, v = .arr [.str fs, c] ∧
      (jsTypeof c = "number" ∨ jsTypeof c = "string" ∨ jsTypeof c = "boolean") := by
  match v with
  | .arr [f, c] =>
      simp only [krillPrimValidateRel, jsTruthy, Bool.not_true, Bool.false_eq_true,
        if_false] at h
      split_ifs at h with h1 h2
      · have hf : jsTypeof f = "string" := by
          by_contra hc
          simp [hc] at h1
        obtain ⟨fs, hfs⟩ : ∃ fs, f = .str fs := by
          cases f <;> simp_all [jsTypeof]
        subst hfs
        refine ⟨fs, c, rfl, ?_⟩
        by_contra hc
        push_neg at hc
        simp [hc.1, hc.2.1, hc.2.2] at h2
  | .arr [] => simp [krillPrimValidateRel, jsTruthy] at h
  | .arr [_] => simp [krillPrimValidateRel, jsTruthy] at h
  | .arr (_ :: _ :: _ :: _) => simp [krillPrimValidateRel, jsTruthy] at h
  | .num n => by_cases hn : n = 0 <;> simp [krillPrimValidateRel, jsTruthy, hn] at h
  | .str s => by_cases hs : s.isEmpty <;> simp [krillPrimValidateRel, jsTruthy, hs] at h
  | .bool b => cases b <;> simp [krillPrimValidateRel, jsTruthy] at h
  | .null => simp [krillPrimValidateRel, jsTruthy] at h
  | .obj props => simp [krillPrimValidateRel, jsTruthy] at h

theorem validateLog_ok_inversion {v : JSVal} {k : String}
    (h : krillPrimValidateLogPayload v k = .ok ()) :
    ∃ cs, v = .arr cs ∧ 2 ≤ cs.length ∧ krillPrimValidateList cs = .ok () := by
  match v with
  | .arr cs =>
      simp only [krillPrimValidateLogPayload, jsTruthy, Bool.not_true,
        Bool.false_eq_true, if_false] at h
      split_ifs at h with h1
      exact ⟨cs, rfl, by omega, h⟩
  | .num n => by_cases hn : n = 0 <;> simp [krillPrimValidateLogPayload, jsTruthy, hn] at h
  | .str s => by_cases hs : s.isEmpty <;> simp [krillPrimValidateLogPayload, jsTruthy, hs] at h
  | .bool b => cases b <;> simp [krillPrimValidateLogPayload, jsTruthy] at h
  | .null => simp [krillPrimValidateLogPayload, jsTruthy] at h
  | .obj props => simp [krillPrimValidateLogPayload, jsTruthy] at h

theorem validateSyntax_inversion {pred : JSVal}
    (h : krillPrimValidateSyntax pred = .ok ()) :
    pred = .arr [] ∨ pred = .obj [] ∨
    (∃ k fs c, pred = .obj [(k, .arr [.str fs, c])] ∧ isRelOp k = true ∧
      (jsTypeof c = "number" ∨ jsTypeof c = "string" ∨ jsTypeof c = "boolean")) ∨
    (∃ k cs, pred = .obj [(k, .arr cs)] ∧ isLogOp k = true ∧ 2 ≤ cs.length ∧
      krillPrimValidateList cs = .ok ()) := by
  match pred with
  | .arr [] => exact Or.inl rfl
  | .obj [] => exact Or.inr (Or.inl rfl)
  | .obj [(k, v)] =>
      unfold krillPrimValidateSyntax at h
      by_cases hk : isKrillOp k = true
      · rw [if_neg (by simp [hk])] at h
        by_cases hr : isRelOp k = true
        · rw [if_pos hr] at h
          obtain ⟨fs, c, hv, hsc⟩ := validateRel_ok_inversion h
          subst hv
          exact Or.inr (Or.inr (Or.inl ⟨k, fs, c, rfl, hr, hsc⟩))
        · rw [if_neg hr] at h
          have hl : isLogOp k = true := by
            rcases Bool.or_eq_true_iff.mp (by simpa [isKrillOp] using hk) with h2 | h2
            · exact absurd h2 hr
            · exact h2
          obtain ⟨cs, hv, hlen, hcs⟩ := validateLog_ok_inversion h
          subst hv
          exact Or.inr (Or.inr (Or.inr ⟨k, cs, rfl, hl, hlen, hcs⟩))
      · rw [if_pos (by simp [Bool.not_eq_true] at hk; simp [hk])] at h
        cases h
  | .arr [_] => cases h
  | .arr (_ :: _ :: _) => cases h
  | .obj (_ :: _ :: _) => cases h
  | .num _ => cases h
  | .str _ => cases h
  | .bool _ => cases h
  | .null => cases h

theorem relOp_not_logKey {k : String} (h : isRelOp k = true) :
    (k == "and" || k == "or") = false := by
  rcases isRelOp_cases h with h2 | h2 | h2 | h2 | h2 | h2 <;> subst h2 <;> rfl

theorem logOp_logKey {k : String} (h : isLogOp k = true) :
    (k == "and" || k == "or") = true := by
  rcases isLogOp_cases h with h2 | h2 <;> subst h2 <;> rfl

theorem firstMissing_append (xlate : JSVal) (l1 l2 : List String) :
    firstMissing xlate (l1 ++ l2) =
      match firstMissing xlate l1 with
      | some f => some f
      | none => firstMissing xlate l2 := by
  induction l1 with
  | nil => rfl
  | cons a l1 ih =>
      by_cases ha : (jsprimPluck xlate a).isNone = true
      · simp [firstMissing, ha]
      · simp [firstMissing, ha, ih]

theorem firstMissing_exists {xlate : JSVal} {l : List String}
    (h : ∃ f ∈ l, jsprimPluck xlate f = none) :
    ∃ f, firstMissing xlate l = some f ∧ f ∈ l ∧ jsprimPluck xlate f = none := by
  induction l with
  | nil => obtain ⟨f, hf, _⟩ := h; cases hf
  | cons a l ih =>
      by_cases ha : jsprimPluck xlate a = none
      · exact ⟨a, by simp [firstMissing, ha], by simp, ha⟩
      · obtain ⟨f, hfl, hfp⟩ := h
        rcases List.mem_cons.mp hfl with hfa | hfl'
        · subst hfa; exact absurd hfp ha
        · obtain ⟨g, h1, h2, h3⟩ := ih ⟨f, hfl', hfp⟩
          refine ⟨g, ?_, by simp [h2], h3⟩
          simpa [firstMissing, Option.isNone_iff_eq_none, ha] using h1

theorem firstMissing_none_mem {xlate : JSVal} {l : List String}
    (h : firstMissing xlate l = none) :
    ∀ f ∈ l, ∃ v, jsprimPluck xlate f = some v := by
  induction l with
  | nil => intro f hf; cases hf
  | cons a l ih =>
      intro f hf
      by_cases ha : (jsprimPluck xlate a).isNone = true
      · simp [firstMissing, ha] at h
      · have ha' : ∃ v, jsprimPluck xlate a = some v := by
          cases hv : jsprimPluck xlate a with
          | none => simp [hv] at ha
          | some v => exact ⟨v, rfl⟩
        rcases List.mem_cons.mp hf with hfa | hfl
        · subst hfa; exact ha'
        · exact ih (by simpa [firstMissing, ha] using h) f hfl

/-- The `replaceFields` walk on a syntactically valid tree: it fails with
the first field (in walk order) that has no translation, naming that field;
with the identity translation it returns the tree unchanged; and with every
referenced field translated it succeeds. -/
theorem replaceFields_characterization (xlate : JSVal) :
    ∀ pred, krillPrimValidateSyntax pred = .ok () →
      (∀ f, firstMissing xlate (krillPrimFieldList pred) = some f →
          krillPrimReplaceFieldsW xlate pred = .error (.missingTranslation f)) ∧
      ((∀ f ∈ krillPrimFieldList pred, jsprimPluck xlate f = some (.str f)) →
          krillPrimReplaceFieldsW xlate pred = .ok pred) ∧
      (firstMissing xlate (krillPrimFieldList pred) = none →
          ∃ t, krillPrimReplaceFieldsW xlate pred = .ok t) := by
  refine JSVal.strongInduction ?_
  intro pred IH hval
  rcases validateSyntax_inversion hval with h | h | ⟨k, fs, c, hp, hrel, _⟩ |
    ⟨k, cs, hp, hlog, hlen, hcs⟩
  · subst h
    refine ⟨?_, ?_, ?_⟩
    · intro f hf; cases hf
    · intro _; rfl
    · intro _; exact ⟨.arr [], rfl⟩
  · subst h
    refine ⟨?_, ?_, ?_⟩
    · intro f hf; cases hf
    · intro _; rfl
    · intro _; exact ⟨.obj [], rfl⟩
  · subst hp
    have hko := relOp_not_logKey hrel
    have hfl : krillPrimFieldList (.obj [(k, .arr [.str fs, c])]) = [fs] := by
      simp [krillPrimFieldList, hko]
    refine ⟨?_, ?_, ?_⟩
    · intro f hf
      rw [hfl] at hf
      cases hpl : jsprimPluck xlate fs with
      | none =>
          have hffs : f = fs := by
            simp [firstMissing, hpl] at hf
            exact hf.symm
          subst hffs
          simp [krillPrimReplaceFieldsW, hko, hpl]
      | some v => simp [firstMissing, hpl] at hf
    · intro hid
      have hpl := hid fs (by rw [hfl]; simp)
      simp [krillPrimReplaceFieldsW, hko, hpl]
    · intro hnone
      rw [hfl] at hnone
      obtain ⟨v, hv⟩ := firstMissing_none_mem hnone fs (by simp)
      exact ⟨.obj [(k, .arr [v, c])], by simp [krillPrimReplaceFieldsW, hko, hv]⟩
  · subst hp
    have hko := logOp_logKey hlog
    have hvm := validateList_ok_mem hcs
    have hfl : krillPrimFieldList (.obj [(k, .arr cs)]) = krillPrimFieldListL cs := by
      simp [krillPrimFieldList, hko]
    have hlist : ∀ cs' : List JSVal,
        (∀ x ∈ cs', sizeOf x < sizeOf (JSVal.obj [(k, JSVal.arr cs)])) →
        (∀ x ∈ cs', krillPrimValidateSyntax x = .ok ()) →
        (∀ f, firstMissing xlate (krillPrimFieldListL cs') = some f →
            krillPrimReplaceFieldsList xlate cs' = .error (.missingTranslation f)) ∧
        ((∀ f ∈ krillPrimFieldListL cs', jsprimPluck xlate f = some (.str f)) →
            krillPrimReplaceFieldsList xlate cs' = .ok cs') ∧
        (firstMissing xlate (krillPrimFieldListL cs') = none →
            ∃ ts, krillPrimReplaceFieldsList xlate cs' = .ok ts) := by
      intro cs'
      induction cs' with
      | nil =>
          intro _ _
          refine ⟨?_, ?_, ?_⟩
          · intro f hf; cases hf
          · intro _; rfl
          · intro _; exact ⟨[], rfl⟩
      | cons x rest ihr =>
          intro hsz hv
          obtain ⟨x1, x2, x3⟩ := IH x (hsz x (by simp)) (hv x (by simp))
          obtain ⟨r1, r2, r3⟩ := ihr (fun y hy => hsz y (by simp [hy]))
            (fun y hy => hv y (by simp [hy]))
          have hfc : krillPrimFieldListL (x :: rest) =
              krillPrimFieldList x ++ krillPrimFieldListL rest := rfl
          refine ⟨?_, ?_, ?_⟩
          · intro f hf
            rw [hfc, firstMissing_append] at hf
            cases hx : firstMissing xlate (krillPrimFieldList x) with
            | some g =>
                rw [hx] at hf
                have hgf : g = f := by simpa using hf
                subst hgf
                unfold krillPrimReplaceFieldsList
                rw [x1 g hx]
                rfl
            | none =>
                rw [hx] at hf
                simp only [] at hf
                obtain ⟨t, ht⟩ := x3 hx
                unfold krillPrimReplaceFieldsList
                rw [ht]
                show (do
                  let rest' ← krillPrimReplaceFieldsList xlate rest
                  Except.ok (t :: rest')) = _
                rw [r1 f hf]
                rfl
          · intro hid
            rw [hfc] at hid
            have hx := x2 (fun f hf => hid f (by simp [hf]))
            have hr := r2 (fun f hf => hid f (by simp [hf]))
            unfold krillPrimReplaceFieldsList
            rw [hx]
            show (do
              let rest' ← krillPrimReplaceFieldsList xlate rest
              Except.ok (x :: rest')) = _
            rw [hr]
            rfl
          · intro hnone
            rw [hfc, firstMissing_append] at hnone
            cases hx : firstMissing xlate (krillPrimFieldList x) with
            | some g => rw [hx] at hnone; cases hnone
            | none =>
                rw [hx] at hnone
                obtain ⟨t, ht⟩ := x3 hx
                obtain ⟨ts, hts⟩ := r3 hnone
                refine ⟨t :: ts, ?_⟩
                unfold krillPrimReplaceFieldsList
                rw [ht]
                show (do
                  let rest' ← krillPrimReplaceFieldsList xlate rest
                  Except.ok (t :: rest')) = _
                rw [hts]
                rfl
    obtain ⟨l1, l2, l3⟩ := hlist cs (fun x hx => sizeOf_child hx) hvm
    refine ⟨?_, ?_, ?_⟩
    · intro f hf
      rw [hfl] at hf
      simp only [krillPrimReplaceFieldsW, hko, if_true]
      rw [l1 f hf]
      rfl
    · intro hid
      rw [hfl] at hid
      simp only [krillPrimReplaceFieldsW, hko, if_true]
      rw [l2 hid]
      rfl
    · intro hnone
      rw [hfl] at hnone
      obtain ⟨ts, hts⟩ := l3 hnone
      refine ⟨.obj [(k, .arr ts)], ?_⟩
      simp only [krillPrimReplaceFieldsW, hko, if_true]
      rw [hts]
      rfl

theorem splitDots_ne_nil (cs : List Char) : splitDots cs ≠ [] := by
  match cs with
  | [] => simp [splitDots]
  | c :: cs =>
      unfold splitDots
      by_cases hc : c = '.'
      · simp [hc]
      · simp only [hc, if_false]
        cases h : splitDots cs <;> simp

theorem joinDots_cons_cons (a b : String) (rest : List String) :
    joinDots (a :: b :: rest) = a ++ "." ++ joinDots (b :: rest) := rfl

theorem joinDots_splitDots (cs : List Char) :
    joinDots ((splitDots cs).map (fun l => String.mk l)) = String.mk cs := by
  induction cs with
  | nil => rfl
  | cons c cs ih =>
      obtain ⟨seg, rest, hsr⟩ : ∃ a b, splitDots cs = a :: b := by
        cases h : splitDots cs with
        | nil => exact absurd h (splitDots_ne_nil cs)
        | cons a b => exact ⟨a, b, rfl⟩
      rw [hsr, List.map_cons] at ih
      by_cases hc : c = '.'
      · subst hc
        have hsplit : splitDots ('.' :: cs) = [] :: splitDots cs := by
          simp [splitDots]
        rw [hsplit, List.map_cons, hsr, List.map_cons, joinDots_cons_cons, ih]
        rfl
      · have hsplit : splitDots (c :: cs) = (c :: seg) :: rest := by
          unfold splitDots
          simp only [hc, if_false, hsr]
        rw [hsplit, List.map_cons]
        cases rest with
        | nil =>
            have hseg : seg = cs := by
              simp only [List.map_nil, joinDots] at ih
              injection ih
            subst hseg
            rfl
        | cons b rest2 =>
            rw [List.map_cons] at ih ⊢
            rw [joinDots_cons_cons] at ih ⊢
            rw [show String.mk (c :: seg) = String.mk [c] ++ String.mk seg from rfl,
              String.append_assoc, String.append_assoc, ← String.append_assoc (String.mk seg),
              ih]
            rfl

theorem lookup_map_self {l : List String} {f : String} (h : f ∈ l) :
    (l.map (fun g => (g, JSVal.str g))).lookup f = some (.str f) := by
  induction l with
  | nil => cases h
  | cons a l ih =>
      by_cases hfa : f = a
      · subst hfa
        simp [List.lookup]
      · have hb : (f == a) = false := by simp [hfa]
        rcases List.mem_cons.mp h with h2 | h2
        · exact absurd h2 hfa
        · simpa [List.lookup, hb] using ih h2

theorem pluck_identityXlate (pred : JSVal) (f : String)
    (hf : f ∈ krillPrimFieldList pred) :
    jsprimPluck (identityXlate pred) f = some (.str f) := by
  unfold jsprimPluck identityXlate
  obtain ⟨seg, rest, hsr⟩ : ∃ a b, splitDots f.data = a :: b := by
    cases h : splitDots f.data with
    | nil => exact absurd h (splitDots_ne_nil f.data)
    | cons a b => exact ⟨a, b, rfl⟩
  rw [hsr, List.map_cons]
  have hjoin : joinDots (String.mk seg :: rest.map (fun l => String.mk l)) = f := by
    have h2 := joinDots_splitDots f.data
    rw [hsr, List.map_cons] at h2
    rw [h2]
  have hlook := lookup_map_self (l := (krillPrimFieldList pred).dedup)
    (List.mem_dedup.mpr hf)
  unfold jsprimPluckSegs
  rw [hjoin, hlook]
  rfl

/-- C3 and C8 below are stated against `Predicate` values; this connects the
substituting walk's success on the underlying tree to the method. -/
theorem replaceFields_ok_of_walk {p : Predicate} {xlate : JSVal} {t : JSVal}
    (h : krillPrimReplaceFieldsW xlate p.p_pred = .ok t) :
    p.replaceFields xlate = .ok { p_pred := t, p_types := p.p_types } := by
  unfold Predicate.replaceFields jsprimDeepCopy
  rw [h]
  rfl

/-- C3: evaluating (or substituting) a non-trivial validated predicate with
a value assignment that omits a referenced field is a hard error: both
`replaceFields` and `eval` fail with the `MissingTranslation` error naming
the offending field (the first untranslatable field in walk order), never
treating the missing field as the predicate evaluating false. -/
theorem C3_missing_field_error (p : Predicate) (values : JSVal)
    (hv : krillPrimValidateSyntax p.p_pred = .ok ())
    (hnt : p.trivial = false)
    (hmiss : ∃ f ∈ krillPrimFieldList p.p_pred, jsprimPluck values f = none) :
    ∃ f, f ∈ krillPrimFieldList p.p_pred ∧ jsprimPluck values f = none ∧
      p.replaceFields values = .error (.missingTranslation f) ∧
      p.eval values = .error (.missingTranslation f) := by
  obtain ⟨f, hfm, hfl, hfp⟩ := firstMissing_exists hmiss
  have h1 := (replaceFields_characterization values p.p_pred hv).1 f hfm
  have hrf : p.replaceFields values = .error (.missingTranslation f) := by
    unfold Predicate.replaceFields jsprimDeepCopy
    rw [h1]
    rfl
  refine ⟨f, hfl, hfp, hrf, ?_⟩
  unfold Predicate.eval
  rw [hnt]
  simp only [Bool.false_eq_true, if_false]
  rw [hrf]
  rfl

/-- C3 witness: a one-leaf predicate evaluated against an empty value
object. -/
theorem C3_missing_field_error_witness :
    ∃ f, f ∈ krillPrimFieldList (.obj [("eq", .arr [.str "a", .num 1])]) ∧
      jsprimPluck (.obj []) f = none ∧
      (Predicate.mk (.obj [("eq", .arr [.str "a", .num 1])]) none).replaceFields
        (.obj []) = .error (.missingTranslation f) ∧
      (Predicate.mk (.obj [("eq", .arr [.str "a", .num 1])]) none).eval
        (.obj []) = .error (.missingTranslation f) :=
  C3_missing_field_error (Predicate.mk (.obj [("eq", .arr [.str "a", .num 1])]) none)
    (.obj []) rfl rfl
    ⟨"a", show "a" ∈ ["a"] from List.mem_singleton.mpr rfl, rfl⟩

/-- C8: substituting a validated predicate with the identity mapping (each
referenced field mapped to its own name) succeeds and returns the predicate
unchanged, so the result evaluates identically to the original under every
value assignment. -/
theorem C8_identity_roundtrip (p : Predicate)
    (hv : krillPrimValidateSyntax p.p_pred = .ok ()) :
    ∃ q, p.replaceFields (identityXlate p.p_pred) = .ok q ∧ q = p ∧
      ∀ values, q.eval values = p.eval values := by
  have hid : ∀ f ∈ krillPrimFieldList p.p_pred,
      jsprimPluck (identityXlate p.p_pred) f = some (.str f) :=
    fun f hf => pluck_identityXlate p.p_pred f hf
  have h2 := (replaceFields_characterization (identityXlate p.p_pred) p.p_pred hv).2.1 hid
  refine ⟨p, ?_, rfl, fun _ => rfl⟩
  exact replaceFields_ok_of_walk h2

/-- C8 witness: the identity substitution on a two-leaf predicate. -/
theorem C8_identity_roundtrip_witness :
    ∃ q, (Predicate.mk (.obj [("and", .arr [.obj [("eq", .arr [.str "a", .num 1])],
        .obj [("lt", .arr [.str "b", .num 2])]])]) none).replaceFields
        (identityXlate (.obj [("and", .arr [.obj [("eq", .arr [.str "a", .num 1])],
          .obj [("lt", .arr [.str "b", .num 2])]])])) = .ok q ∧
      q = Predicate.mk (.obj [("and", .arr [.obj [("eq", .arr [.str "a", .num 1])],
        .obj [("lt", .arr [.str "b", .num 2])]])]) none ∧
      ∀ values, q.eval values =
        (Predicate.mk (.obj [("and", .arr [.obj [("eq", .arr [.str "a", .num 1])],
          .obj [("lt", .arr [.str "b", .num 2])]])]) none).eval values :=
  C8_identity_roundtrip _ rfl

theorem validateFieldType_cases (fts : List (String × String)) (pred : JSVal)
    (k : String) :
    krillPrimValidateFieldType (some fts) pred k = .ok () ∨
    ∃ msg, krillPrimValidateFieldType (some fts) pred k =
      .error (.schemaViolation msg) := by
  unfold krillPrimValidateFieldType
  dsimp only
  split
  · exact Or.inr ⟨_, rfl⟩
  · split
    · split
      · exact Or.inr ⟨_, rfl⟩
      · split
        · exact Or.inr ⟨_, rfl⟩
        · exact Or.inl rfl
    · exact Or.inr ⟨_, rfl⟩

theorem validateFieldType_violation {fts : List (String × String)} {k fs : String}
    {c : JSVal} (hrel : isRelOp k = true)
    (hviol : ((opAcceptedTypes k).contains (jsTypeof c)) = false ∨
      ∃ t, fts.lookup fs = some t ∧ t ≠ jsTypeof c) :
    ∃ msg, krillPrimValidateFieldType (some fts)
      (.obj [(k, .arr [.str fs, c])]) k = .error (.schemaViolation msg) := by
  have hconstty : jsTypeofOpt
      ((jsGet (JSVal.obj [(k, JSVal.arr [JSVal.str fs, c])]) k) >>= fun w => jsGet w "1") =
      jsTypeof c := by
    rw [jsGet_singleton_obj]
    rfl
  have hfieldopt : ((jsGet (JSVal.obj [(k, JSVal.arr [JSVal.str fs, c])]) k) >>=
      fun w => jsGet w "0") = some (.str fs) := by
    rw [jsGet_singleton_obj]
    rfl
  unfold krillPrimValidateFieldType
  rw [hconstty, hfieldopt, hrel]
  by_cases hacc : ((opAcceptedTypes k).contains (jsTypeof c)) = true
  · rcases hviol with h1 | ⟨t, hl, hne⟩
    · rw [h1] at hacc; cases hacc
    · rw [hacc]
      simp only [Bool.not_true, Bool.and_false, Bool.false_eq_true, if_false]
      rw [hl]
      have hbne : (t != jsTypeof c) = true := by simp [hne]
      refine ⟨"field " ++ fs ++ " value expected " ++ t ++ " but got " ++ jsTypeof c, ?_⟩
      show (if (t != jsTypeof c) = true then _ else _) = _
      simp [hbne]
  · have h1 : ((opAcceptedTypes k).contains (jsTypeof c)) = false := by
      simpa using hacc
    rw [h1]
    exact ⟨_, rfl⟩

/-- The semantic pass on a syntactically valid tree: it either succeeds or
fails with a `SchemaViolation`, and success means the per-leaf check passed
at every relational leaf; every collected leaf is a relational leaf of the
standard shape. -/
theorem validateTypes_characterization (fts : List (String × String)) :
    ∀ pred, krillPrimValidateSyntax pred = .ok () →
      (krillPrimValidateTypesW (some fts) pred = .ok () ∨
        ∃ msg, krillPrimValidateTypesW (some fts) pred =
          .error (.schemaViolation msg)) ∧
      (krillPrimValidateTypesW (some fts) pred = .ok () →
        ∀ kn ∈ krillPrimLeafList pred,
          krillPrimValidateFieldType (some fts) kn.2 kn.1 = .ok ()) ∧
      (∀ kn ∈ krillPrimLeafList pred, ∃ fs c,
        kn.2 = JSVal.obj [(kn.1, .arr [.str fs, c])] ∧ isRelOp kn.1 = true) := by
  refine JSVal.strongInduction ?_
  intro pred IH hval
  rcases validateSyntax_inversion hval with h | h | ⟨k, fs, c, hp, hrel, _⟩ |
    ⟨k, cs, hp, hlog, hlen, hcs⟩
  · subst h
    refine ⟨Or.inl rfl, ?_, ?_⟩
    · intro _ kn hkn
      simp [krillPrimLeafList] at hkn
    · intro kn hkn
      simp [krillPrimLeafList] at hkn
  · subst h
    refine ⟨Or.inl rfl, ?_, ?_⟩
    · intro _ kn hkn
      simp [krillPrimLeafList] at hkn
    · intro kn hkn
      simp [krillPrimLeafList] at hkn
  · subst hp
    have hko := relOp_not_logKey hrel
    have hW : krillPrimValidateTypesW (some fts) (.obj [(k, .arr [.str fs, c])]) =
        krillPrimValidateFieldType (some fts) (.obj [(k, .arr [.str fs, c])]) k := by
      simp [krillPrimValidateTypesW, hko]
    have hL : krillPrimLeafList (.obj [(k, .arr [.str fs, c])]) =
        [(k, .obj [(k, .arr [.str fs, c])])] := by
      simp [krillPrimLeafList, hko]
    refine ⟨?_, ?_, ?_⟩
    · rw [hW]; exact validateFieldType_cases fts _ k
    · intro hok kn hkn
      rw [hL] at hkn
      simp at hkn
      subst hkn
      rw [hW] at hok
      exact hok
    · intro kn hkn
      rw [hL] at hkn
      simp at hkn
      subst hkn
      exact ⟨fs, c, rfl, hrel⟩
  · subst hp
    have hko := logOp_logKey hlog
    have hvm := validateList_ok_mem hcs
    have hW : krillPrimValidateTypesW (some fts) (.obj [(k, .arr cs)]) =
        krillPrimValidateTypesList (some fts) cs := by
      simp [krillPrimValidateTypesW, hko]
    have hL : krillPrimLeafList (.obj [(k, .arr cs)]) = krillPrimLeafListL cs := by
      simp [krillPrimLeafList, hko]
    have hlist : ∀ cs' : List JSVal,
        (∀ x ∈ cs', sizeOf x < sizeOf (JSVal.obj [(k, JSVal.arr cs)])) →
        (∀ x ∈ cs', krillPrimValidateSyntax x = .ok ()) →
        (krillPrimValidateTypesList (some fts) cs' = .ok () ∨
          ∃ msg, krillPrimValidateTypesList (some fts) cs' =
            .error (.schemaViolation msg)) ∧
        (krillPrimValidateTypesList (some fts) cs' = .ok () →
          ∀ kn ∈ krillPrimLeafListL cs',
            krillPrimValidateFieldType (some fts) kn.2 kn.1 = .ok ()) ∧
        (∀ kn ∈ krillPrimLeafListL cs', ∃ fs c,
          kn.2 = JSVal.obj [(kn.1, .arr [.str fs, c])] ∧ isRelOp kn.1 = true) := by
      intro cs'
      induction cs' with
      | nil =>
          intro _ _
          refine ⟨Or.inl rfl, ?_, ?_⟩
          · intro _ kn hkn
            simp [krillPrimLeafListL] at hkn
          · intro kn hkn
            simp [krillPrimLeafListL] at hkn
      | cons x rest ihr =>
          intro hsz hv
          obtain ⟨x1, x2, x3⟩ := IH x (hsz x (by simp)) (hv x (by simp))
          obtain ⟨r1, r2, r3⟩ := ihr (fun y hy => hsz y (by simp [hy]))
            (fun y hy => hv y (by simp [hy]))
          have hLc : krillPrimLeafListL (x :: rest) =
              krillPrimLeafList x ++ krillPrimLeafListL rest := rfl
          refine ⟨?_, ?_, ?_⟩
          · rcases x1 with hx | ⟨msg, hx⟩
            · rcases r1 with hr | ⟨msg, hr⟩
              · refine Or.inl ?_
                unfold krillPrimValidateTypesList
                rw [hx]
                exact hr
              · refine Or.inr ⟨msg, ?_⟩
                unfold krillPrimValidateTypesList
                rw [hx]
                exact hr
            · refine Or.inr ⟨msg, ?_⟩
              unfold krillPrimValidateTypesList
              rw [hx]
              rfl
          · intro hok kn hkn
            have hx : krillPrimValidateTypesW (some fts) x = .ok () := by
              rcases x1 with hx | ⟨msg, hx⟩
              · exact hx
              · unfold krillPrimValidateTypesList at hok
                rw [hx] at hok
                cases hok
            have hr : krillPrimValidateTypesList (some fts) rest = .ok () := by
              unfold krillPrimValidateTypesList at hok
              rw [hx] at hok
              exact hok
            rw [hLc] at hkn
            rcases List.mem_append.mp hkn with h2 | h2
            · exact x2 hx kn h2
            · exact r2 hr kn h2
          · intro kn hkn
            rw [hLc] at hkn
            rcases List.mem_append.mp hkn with h2 | h2
            · exact x3 kn h2
            · exact r3 kn h2
    obtain ⟨l1, l2, l3⟩ := hlist cs (fun x hx => sizeOf_child hx) hvm
    rw [hW, hL]
    exact ⟨l1, l2, l3⟩

theorem createPredicate_some_types {pred : JSVal} {fts : List (String × String)}
    (h1 : krillPrimValidateSyntax pred = .ok ())
    (h2 : checkTypeNames fts = .ok ()) :
    createPredicate pred (some fts) = (do
      krillPrimValidateTypesW (some fts) pred
      Except.ok { p_pred := pred, p_types := some fts }) := by
  unfold createPredicate jsprimDeepCopy
  rw [h1]
  dsimp only
  rw [h2]
  rfl

/-- C4: when a schema is supplied, `createPredicate` rejects with a
`SchemaViolation` every syntactically valid tree containing a relational
leaf whose constant's runtime type is outside the operator's accepted set
(independently of the schema's declared types), and every leaf whose
constant's runtime type differs from the schema's declared type for the
field — exact equality, no coercion. -/
theorem C4_schema_rejection (pred : JSVal) (fts : List (String × String))
    (hsyn : krillPrimValidateSyntax pred = .ok ())
    (hnames : checkTypeNames fts = .ok ())
    (hviol : ∃ k fs c, (k, JSVal.obj [(k, .arr [.str fs, c])]) ∈ krillPrimLeafList pred ∧
      (((opAcceptedTypes k).contains (jsTypeof c)) = false ∨
        ∃ t, fts.lookup fs = some t ∧ t ≠ jsTypeof c)) :
    ∃ msg, createPredicate pred (some fts) = .error (.schemaViolation msg) := by
  obtain ⟨k, fs, c, hmem, hbad⟩ := hviol
  obtain ⟨w1, w2, w3⟩ := validateTypes_characterization fts pred hsyn
  have hrel : isRelOp k = true := by
    obtain ⟨fs', c', hshape, hr⟩ := w3 _ hmem
    exact hr
  have hnotok : krillPrimValidateTypesW (some fts) pred ≠ .ok () := by
    intro hok
    obtain ⟨msg, hmsg⟩ := validateFieldType_violation hrel hbad
    have := w2 hok _ hmem
    rw [this] at hmsg
    cases hmsg
  rcases w1 with hok | ⟨msg, hmsg⟩
  · exact absurd hok hnotok
  · refine ⟨msg, ?_⟩
    rw [createPredicate_some_types hsyn hnames, hmsg]
    rfl

/-- C4 witness: the spec's two rejection examples — a string constant
against a number-typed field under `eq`, and `lt` applied to a string
constant, which no schema declaration can make acceptable. -/
theorem C4_schema_rejection_witness :
    (∃ msg, createPredicate (.obj [("eq", .arr [.str "n", .str "3"])])
      (some [("n", "number")]) = .error (.schemaViolation msg)) ∧
    (∃ msg, createPredicate (.obj [("lt", .arr [.str "s", .str "3"])])
      (some [("s", "string")]) = .error (.schemaViolation msg)) := by
  constructor
  · exact C4_schema_rejection _ _ rfl rfl
      ⟨"eq", "n", .str "3", show _ ∈ [("eq", JSVal.obj [("eq", .arr [.str "n", .str "3"])])]
        from List.mem_singleton.mpr rfl,
        Or.inr ⟨"number", rfl, by decide⟩⟩
  · exact C4_schema_rejection _ _ rfl rfl
      ⟨"lt", "s", .str "3", show _ ∈ [("lt", JSVal.obj [("lt", .arr [.str "s", .str "3"])])]
        from List.mem_singleton.mpr rfl,
        Or.inl rfl⟩

theorem hasTrivialLogChildL_exists {cs : List JSVal}
    (h : hasTrivialLogChildL cs = true) :
    ∃ x ∈ cs, krillPrimTrivial x = true ∨ hasTrivialLogChild x = true := by
  induction cs with
  | nil => simp [hasTrivialLogChildL] at h
  | cons c cs ih =>
      unfold hasTrivialLogChildL at h
      rcases Bool.or_eq_true_iff.mp h with h2 | h2
      · exact ⟨c, by simp, Bool.or_eq_true_iff.mp h2⟩
      · obtain ⟨x, hx, hb⟩ := ih h2
        exact ⟨x, by simp [hx], hb⟩

theorem nontrivial_of_hasTLC {v : JSVal} (h : hasTrivialLogChild v = true) :
    krillPrimTrivial v = false := by
  cases v with
  | obj props =>
      cases props with
      | nil => simp [hasTrivialLogChild] at h
      | cons hd tl => rfl
  | num n => simp [hasTrivialLogChild] at h
  | str s => simp [hasTrivialLogChild] at h
  | bool b => simp [hasTrivialLogChild] at h
  | null => simp [hasTrivialLogChild] at h
  | arr xs => simp [hasTrivialLogChild] at h

/-- The LDAP printer on a syntactically valid tree either succeeds or fails
the one-key assertion, and it certainly fails whenever the tree is trivial
or some logical node of it has a trivial operand. -/
theorem printLDAP_characterization :
    ∀ pred, krillPrimValidateSyntax pred = .ok () →
      ((∃ s, krillPrimPrintLDAP pred = .ok s) ∨
        krillPrimPrintLDAP pred = .error .assertFail) ∧
      ((krillPrimTrivial pred = true ∨ hasTrivialLogChild pred = true) →
        krillPrimPrintLDAP pred = .error .assertFail) := by
  refine JSVal.strongInduction ?_
  intro pred IH hval
  rcases validateSyntax_inversion hval with h | h | ⟨k, fs, c, hp, hrel, _⟩ |
    ⟨k, cs, hp, hlog, hlen, hcs⟩
  · subst h
    exact ⟨Or.inr rfl, fun _ => rfl⟩
  · subst h
    exact ⟨Or.inr rfl, fun _ => rfl⟩
  · subst hp
    have hko := relOp_not_logKey hrel
    refine ⟨Or.inl ⟨krillPrimPrintRelLDAP (.obj [(k, .arr [.str fs, c])]) k,
      by simp [krillPrimPrintLDAP, hrel]⟩, ?_⟩
    intro hbad
    rcases hbad with hbad | hbad
    · simp [krillPrimTrivial] at hbad
    · simp [hasTrivialLogChild, hko] at hbad
  · subst hp
    have hko := logOp_logKey hlog
    have hrel' := isRelOp_false_of_isLogOp hlog
    have hvm := validateList_ok_mem hcs
    have hlist : ∀ cs' : List JSVal,
        (∀ x ∈ cs', sizeOf x < sizeOf (JSVal.obj [(k, JSVal.arr cs)])) →
        (∀ x ∈ cs', krillPrimValidateSyntax x = .ok ()) →
        ((∃ ss, krillPrimPrintLDAPList cs' = .ok ss) ∨
          krillPrimPrintLDAPList cs' = .error .assertFail) ∧
        ((∃ x ∈ cs', krillPrimTrivial x = true ∨ hasTrivialLogChild x = true) →
          krillPrimPrintLDAPList cs' = .error .assertFail) := by
      intro cs'
      induction cs' with
      | nil =>
          intro _ _
          refine ⟨Or.inl ⟨[], rfl⟩, ?_⟩
          intro hbad
          obtain ⟨x, hx, _⟩ := hbad
          cases hx
      | cons x rest ihr =>
          intro hsz hv
          obtain ⟨p1, p2⟩ := IH x (hsz x (by simp)) (hv x (by simp))
          obtain ⟨q1, q2⟩ := ihr (fun y hy => hsz y (by simp [hy]))
            (fun y hy => hv y (by simp [hy]))
          refine ⟨?_, ?_⟩
          · rcases p1 with ⟨s, hs⟩ | hs
            · rcases q1 with ⟨ss, hss⟩ | hss
              · refine Or.inl ⟨s :: ss, ?_⟩
                unfold krillPrimPrintLDAPList
                rw [hs]
                show (do
                  let rest' ← krillPrimPrintLDAPList rest
                  Except.ok (s :: rest')) = _
                rw [hss]
                rfl
              · refine Or.inr ?_
                unfold krillPrimPrintLDAPList
                rw [hs]
                show (do
                  let rest' ← krillPrimPrintLDAPList rest
                  Except.ok (s :: rest')) = _
                rw [hss]
                rfl
            · refine Or.inr ?_
              unfold krillPrimPrintLDAPList
              rw [hs]
              rfl
          · intro hbad
            obtain ⟨y, hy, hb⟩ := hbad
            rcases List.mem_cons.mp hy with hyx | hyr
            · subst hyx
              unfold krillPrimPrintLDAPList
              rw [p2 hb]
              rfl
            · rcases p1 with ⟨s, hs⟩ | hs
              · unfold krillPrimPrintLDAPList
                rw [hs]
                show (do
                  let rest' ← krillPrimPrintLDAPList rest
                  Except.ok (s :: rest')) = _
                rw [q2 ⟨y, hyr, hb⟩]
                rfl
              · unfold krillPrimPrintLDAPList
                rw [hs]
                rfl
    obtain ⟨l1, l2⟩ := hlist cs (fun x hx => sizeOf_child hx) hvm
    have hnode : ∀ r, krillPrimPrintLDAPList cs = r →
        krillPrimPrintLDAP (.obj [(k, .arr cs)]) = (do
          let ss ← r
          Except.ok ("(" ++ opLdapLogName k ++ String.join ss ++ ")")) := by
      intro r hr
      simp [krillPrimPrintLDAP, hrel', hlog, hr]
    refine ⟨?_, ?_⟩
    · rcases l1 with ⟨ss, hss⟩ | hss
      · refine Or.inl ⟨"(" ++ opLdapLogName k ++ String.join ss ++ ")", ?_⟩
        rw [hnode _ hss]
        rfl
      · refine Or.inr ?_
        rw [hnode _ hss]
        rfl
    · intro hbad
      rcases hbad with hbad | hbad
      · simp [krillPrimTrivial] at hbad
      · have hex := hasTrivialLogChildL_exists (by simpa [hasTrivialLogChild, hko] using hbad)
        rw [hnode _ (l2 hex)]
        rfl

/-- C10: a validated predicate in which some logical node has a trivial
(empty) operand — a shape syntax validation accepts — also fails to print
as an LDAP filter (the per-node printer asserts exactly one key at every
node it visits), not only when the top-level predicate itself is trivial. -/
theorem C10_trivial_child_ldap_error (p : Predicate)
    (hv : krillPrimValidateSyntax p.p_pred = .ok ())
    (h : hasTrivialLogChild p.p_pred = true) :
    p.toLDAPFilterString = .error .assertFail := by
  have hnt : p.trivial = false := nontrivial_of_hasTLC h
  unfold Predicate.toLDAPFilterString
  rw [hnt]
  simp only [Bool.false_eq_true, if_false]
  exact (printLDAP_characterization p.p_pred hv).2 (Or.inr h)

/-- C10 witness: the validated tree `and [{}, eq [a, 1]]`. -/
theorem C10_trivial_child_ldap_error_witness :
    krillPrimValidateSyntax
      (.obj [("and", .arr [.obj [], .obj [("eq", .arr [.str "a", .num 1])]])]) = .ok () ∧
    hasTrivialLogChild
      (.obj [("and", .arr [.obj [], .obj [("eq", .arr [.str "a", .num 1])]])]) = true ∧
    (Predicate.mk
      (.obj [("and", .arr [.obj [], .obj [("eq", .arr [.str "a", .num 1])]])])
      none).toLDAPFilterString = .error .assertFail :=
  ⟨rfl, rfl, C10_trivial_child_ldap_error
    (Predicate.mk
      (.obj [("and", .arr [.obj [], .obj [("eq", .arr [.str "a", .num 1])]])])
      none) rfl rfl⟩

theorem heapFreshGE_rfl (h : Heap) : heapFreshGE h.length h := by
  intro a node ha hnode
  rw [List.getElem?_eq_none ha] at hnode
  cases hnode

theorem getElem?_append_lt {α : Type} (l1 l2 : List α) (a : Nat)
    (h : a < l1.length) : (l1 ++ l2)[a]? = l1[a]? := by
  simp [List.getElem?_append, h]

theorem getElem?_append_self {α : Type} (l : List α) (v : α) :
    (l ++ [v])[l.length]? = some v := by
  simp

/-- The postcondition the copy leaves on the heap: it only grew, the cells
below the original length are untouched, and the region at or above `n`
references only that region. -/
def copyPost (n : Nat) (h h' : Heap) : Prop :=
  h.length ≤ h'.length ∧ (∀ a, a < h.length → h'[a]? = h[a]?) ∧ heapFreshGE n h'

theorem copyPost_rfl {n : Nat} (h : Heap) (hf : heapFreshGE n h) :
    copyPost n h h :=
  ⟨le_refl _, fun _ _ => rfl, hf⟩

theorem copyPost_trans {n : Nat} {h h1 h2 : Heap}
    (p1 : copyPost n h h1) (p2 : copyPost n h1 h2) : copyPost n h h2 := by
  obtain ⟨hl1, hp1, _⟩ := p1
  obtain ⟨hl2, hp2, hf2⟩ := p2
  exact ⟨le_trans hl1 hl2,
    fun a ha => (hp2 a (lt_of_lt_of_le ha hl1)).trans (hp1 a ha), hf2⟩

theorem heapFreshGE_append (n : Nat) (h1 : Heap) (node : HNode)
    (hf1 : heapFreshGE n h1) (hnode : nodeGE n node) :
    heapFreshGE n (h1 ++ [node]) := by
  intro b nd hb hnd
  by_cases hb1 : b < h1.length
  · rw [getElem?_append_lt h1 _ b hb1] at hnd
    exact hf1 b nd hb hnd
  · have hbeq : b = h1.length := by
      by_contra hne
      rw [List.getElem?_eq_none (by
        simp only [List.length_append, List.length_singleton]; omega)] at hnd
      cases hnd
    subst hbeq
    rw [getElem?_append_self] at hnd
    cases hnd
    exact hnode

theorem copyPost_append (n : Nat) (h h1 : Heap) (node : HNode)
    (hpost : copyPost n h h1) (hnode : nodeGE n node) :
    copyPost n h (h1 ++ [node]) := by
  obtain ⟨hl1, hp1, hf1⟩ := hpost
  refine ⟨?_, ?_, heapFreshGE_append n h1 node hf1 hnode⟩
  · simp only [List.length_append, List.length_singleton]; omega
  · intro a ha
    rw [getElem?_append_lt h1 _ a (lt_of_lt_of_le ha hl1)]
    exact hp1 a ha

/-- `jsprim.deepCopy` at the heap level only appends to the heap: the
original cells are untouched, the copy's root and every freshly allocated
cell reference only the region at or above `n`. -/
theorem hCopy_spec (n : Nat) : ∀ fuel : Nat,
    (∀ h x h' x', n ≤ h.length → heapFreshGE n h →
      hCopyAtom h fuel x = some (h', x') → copyPost n h h' ∧ atomGE n x') ∧
    (∀ h xs h' xs', n ≤ h.length → heapFreshGE n h →
      hCopyList h fuel xs = some (h', xs') →
      copyPost n h h' ∧ (∀ x ∈ xs', atomGE n x)) ∧
    (∀ h ps h' ps', n ≤ h.length → heapFreshGE n h →
      hCopyProps h fuel ps = some (h', ps') →
      copyPost n h h' ∧ (∀ p ∈ ps', atomGE n p.2)) := by
  intro fuel
  induction fuel with
  | zero =>
      refine ⟨?_, ?_, ?_⟩
      · intro h x h' x' hn hf hc
        cases x with
        | hnum m => cases hc; exact ⟨copyPost_rfl h hf, trivial⟩
        | hstr s => cases hc; exact ⟨copyPost_rfl h hf, trivial⟩
        | hbool b => cases hc; exact ⟨copyPost_rfl h hf, trivial⟩
        | hnull => cases hc; exact ⟨copyPost_rfl h hf, trivial⟩
        | href a => cases hc
      · intro h xs h' xs' hn hf hc
        cases xs with
        | nil => cases hc; exact ⟨copyPost_rfl h hf, fun x hx => by cases hx⟩
        | cons x xs => cases hc
      · intro h ps h' ps' hn hf hc
        cases ps with
        | nil => cases hc; exact ⟨copyPost_rfl h hf, fun p hp => by cases hp⟩
        | cons p ps => cases hc
  | succ fuel ih =>
      obtain ⟨iha, ihl, ihp⟩ := ih
      refine ⟨?_, ?_, ?_⟩
      · intro h x h' x' hn hf hc
        cases x with
        | hnum m => cases hc; exact ⟨copyPost_rfl h hf, trivial⟩
        | hstr s => cases hc; exact ⟨copyPost_rfl h hf, trivial⟩
        | hbool b => cases hc; exact ⟨copyPost_rfl h hf, trivial⟩
        | hnull => cases hc; exact ⟨copyPost_rfl h hf, trivial⟩
        | href a =>
            unfold hCopyAtom at hc
            split at hc
            · cases hc
            · rename_i xs hna
              split at hc
              · cases hc
              · rename_i h1 xs1 hcl
                cases hc
                obtain ⟨hpost, hxs1⟩ := ihl h xs h1 xs1 hn hf hcl
                exact ⟨copyPost_append n h h1 _ hpost hxs1,
                  le_trans hn hpost.1⟩
            · rename_i ps hna
              split at hc
              · cases hc
              · rename_i h1 ps1 hcl
                cases hc
                obtain ⟨hpost, hps1⟩ := ihp h ps h1 ps1 hn hf hcl
                exact ⟨copyPost_append n h h1 _ hpost hps1,
                  le_trans hn hpost.1⟩
      · intro h xs h' xs' hn hf hc
        cases xs with
        | nil => cases hc; exact ⟨copyPost_rfl h hf, fun x hx => by cases hx⟩
        | cons x xs =>
            unfold hCopyList at hc
            split at hc
            · cases hc
            · rename_i h1 x1 hca
              split at hc
              · cases hc
              · rename_i h2 xs1 hcl
                cases hc
                obtain ⟨hpost1, hx1⟩ := iha h x h1 x1 hn hf hca
                obtain ⟨hpost2, hxs1⟩ :=
                  ihl h1 xs h' xs1 (le_trans hn hpost1.1) hpost1.2.2 hcl
                refine ⟨copyPost_trans hpost1 hpost2, ?_⟩
                intro y hy
                rcases List.mem_cons.mp hy with hyx | hyr
                · subst hyx; exact hx1
                · exact hxs1 y hyr
      · intro h ps h' ps' hn hf hc
        cases ps with
        | nil => cases hc; exact ⟨copyPost_rfl h hf, fun p hp => by cases hp⟩
        | cons kx ps =>
            obtain ⟨kk, x⟩ := kx
            unfold hCopyProps at hc
            split at hc
            · cases hc
            · rename_i h1 x1 hca
              split at hc
              · cases hc
              · rename_i h2 ps1 hcl
                cases hc
                obtain ⟨hpost1, hx1⟩ := iha h x h1 x1 hn hf hca
                obtain ⟨hpost2, hps1⟩ :=
                  ihp h1 ps h' ps1 (le_trans hn hpost1.1) hpost1.2.2 hcl
                refine ⟨copyPost_trans hpost1 hpost2, ?_⟩
                intro p hp
                rcases List.mem_cons.mp hp with hpx | hpr
                · subst hpx; exact hx1
                · exact hps1 p hpr

/-- The postcondition of the substituting walk: the heap keeps its length,
the cells below `n` are untouched, and the region at or above `n` still
references only itself. -/
def walkPost (n : Nat) (h h' : Heap) : Prop :=
  h'.length = h.length ∧ (∀ a, a < n → h'[a]? = h[a]?) ∧ heapFreshGE n h'

theorem walkPost_rfl {n : Nat} (h : Heap) (hf : heapFreshGE n h) :
    walkPost n h h := ⟨rfl, fun _ _ => rfl, hf⟩

theorem walkPost_trans {n : Nat} {h h1 h2 : Heap}
    (p1 : walkPost n h h1) (p2 : walkPost n h1 h2) : walkPost n h h2 := by
  obtain ⟨hl1, hp1, _⟩ := p1
  obtain ⟨hl2, hp2, hf2⟩ := p2
  exact ⟨hl2.trans hl1, fun a ha => (hp2 a ha).trans (hp1 a ha), hf2⟩

theorem lookup_mem {β : Type} (l : List (String × β)) (k : String) (v : β)
    (h : l.lookup k = some v) : ∃ p ∈ l, p.2 = v := by
  induction l with
  | nil => cases h
  | cons p l ih =>
      obtain ⟨k1, v1⟩ := p
      simp only [List.lookup] at h
      split at h
      · cases h; exact ⟨(k1, v), by simp, rfl⟩
      · obtain ⟨q, hq, hv⟩ := ih h
        exact ⟨q, by simp [hq], hv⟩

/-- The substituting walk writes only inside the region at or above `n`:
if the root references only that region, and the region is self-contained,
a successful walk keeps the heap's length, leaves every cell below `n`
untouched, and keeps the region self-contained. -/
theorem hMutWalk_spec (n : Nat) (xlate : List (String × HAtom))
    (hxp : xlatePrim xlate) : ∀ fuel : Nat,
    (∀ h x h', atomGE n x → heapFreshGE n h →
      hMutWalk xlate fuel h x = .ok h' → walkPost n h h') ∧
    (∀ h cs h', (∀ c ∈ cs, atomGE n c) → heapFreshGE n h →
      hMutWalkList xlate fuel h cs = .ok h' → walkPost n h h') := by
  intro fuel
  induction fuel with
  | zero =>
      constructor
      · intro h x h' hx hf hc
        cases hc
      · intro h cs h' hcs hf hc
        cases cs with
        | nil => cases hc; exact walkPost_rfl h hf
        | cons c cs => cases hc
  | succ fuel ih =>
      obtain ⟨ihw, ihl⟩ := ih
      constructor
      · intro h x h' hx hf hc
        cases x with
        | hnum m => cases hc; exact walkPost_rfl h hf
        | hstr s => cases hc; exact walkPost_rfl h hf
        | hbool b => cases hc; exact walkPost_rfl h hf
        | hnull => cases hc; exact walkPost_rfl h hf
        | href a =>
            unfold hMutWalk at hc
            split at hc
            · cases hc
            · cases hc; exact walkPost_rfl h hf
            · cases hc; exact walkPost_rfl h hf
            · rename_i k payload hna
              have hpayload : atomGE n payload := by
                have := hf a _ hx hna
                exact this (k, payload) (by simp)
              split at hc
              · -- logical node
                split at hc
                · -- payload is a reference
                  rename_i pa
                  split at hc
                  · rename_i cs hpa
                    have hcs : ∀ c ∈ cs, atomGE n c := hf pa _ hpayload hpa
                    exact ihl h cs h' hcs hf hc
                  · cases hc; exact walkPost_rfl h hf
                · cases hc; exact walkPost_rfl h hf
              · -- relational leaf
                split at hc
                · -- payload is a reference
                  rename_i pa
                  split at hc
                  · rename_i f rest hpa
                    split at hc
                    · rename_i fs
                      split at hc
                      · cases hc
                      · rename_i val hlook
                        cases hc
                        have hrest : ∀ c ∈ (HAtom.hstr fs) :: rest, atomGE n c :=
                          hf pa _ hpayload hpa
                        have hval : atomGE n val := by
                          obtain ⟨q, hq, hv⟩ := lookup_mem xlate fs val hlook
                          cases hvv : q.2 with
                          | href b => exact absurd hvv (hxp q hq b)
                          | hnum m => rw [hv] at hvv; rw [hvv]; exact trivial
                          | hstr s => rw [hv] at hvv; rw [hvv]; exact trivial
                          | hbool b => rw [hv] at hvv; rw [hvv]; exact trivial
                          | hnull => rw [hv] at hvv; rw [hvv]; exact trivial
                        have hnpa : n ≤ pa := hpayload
                        have hpalt : pa < h.length := by
                          by_contra hge
                          rw [List.getElem?_eq_none (by omega)] at hpa
                          cases hpa
                        refine ⟨List.length_set h pa _, ?_, ?_⟩
                        · intro b hb
                          exact List.getElem?_set_ne (by omega : pa ≠ b)
                        · intro b nd hb hnd
                          by_cases hbp : b = pa
                          · subst hbp
                            rw [List.getElem?_set_self hpalt] at hnd
                            cases hnd
                            intro c hcmem
                            rcases List.mem_cons.mp hcmem with hcv | hcr
                            · subst hcv; exact hval
                            · exact hrest c (by simp [hcr])
                          · rw [List.getElem?_set_ne (fun he => hbp he.symm)] at hnd
                            exact hf b nd hb hnd
                    · cases hc
                  · cases hc
                · cases hc
            · cases hc
      · intro h cs h' hcs hf hc
        cases cs with
        | nil => cases hc; exact walkPost_rfl h hf
        | cons c cs =>
            unfold hMutWalkList at hc
            split at hc
            · cases hc
            · rename_i h1 hw
              have post1 := ihw h c h1 (hcs c (by simp)) hf hw
              have post2 := ihl h1 cs h'
                (fun d hd => hcs d (by simp [hd])) post1.2.2 hc
              exact walkPost_trans post1 post2

/-- Decoding only looks at the cells it reaches: if two heaps agree below
`n`, the region below `n` is closed, and the root references below `n`,
the two heaps decode the root to the same value. -/
theorem decode_congr (n : Nat) (h h' : Heap)
    (hagree : ∀ a, a < n → h'[a]? = h[a]?)
    (hcl : ∀ a node, a < n → h[a]? = some node → nodeLT n node) :
    ∀ fuel : Nat,
    (∀ x, atomLT n x → decodeAtom h' fuel x = decodeAtom h fuel x) ∧
    (∀ nd, nodeLT n nd → decodeNode h' fuel nd = decodeNode h fuel nd) ∧
    (∀ xs, (∀ x ∈ xs, atomLT n x) →
      decodeList h' fuel xs = decodeList h fuel xs) ∧
    (∀ ps, (∀ p ∈ ps, atomLT n p.2) →
      decodeProps h' fuel ps = decodeProps h fuel ps) := by
  intro fuel
  induction fuel with
  | zero =>
      refine ⟨?_, ?_, ?_, ?_⟩
      · intro x _
        cases x with
        | hnum m => rfl
        | hstr s => rfl
        | hbool b => rfl
        | hnull => rfl
        | href a => rfl
      · intro nd _; rfl
      · intro xs _
        cases xs with
        | nil => rfl
        | cons x xs => rfl
      · intro ps _
        cases ps with
        | nil => rfl
        | cons p ps => rfl
  | succ fuel ih =>
      obtain ⟨ida, idn, idl, idp⟩ := ih
      refine ⟨?_, ?_, ?_, ?_⟩
      · intro x hlt
        cases x with
        | hnum m => rfl
        | hstr s => rfl
        | hbool b => rfl
        | hnull => rfl
        | href a =>
            have ha : a < n := hlt
            unfold decodeAtom
            rw [hagree a ha]
            cases hna : h[a]? with
            | none => rfl
            | some nd => exact idn nd (hcl a nd ha hna)
      · intro nd hnd
        cases nd with
        | harr xs =>
            unfold decodeNode
            rw [idl xs hnd]
        | hobj ps =>
            unfold decodeNode
            rw [idp ps hnd]
      · intro xs hxs
        cases xs with
        | nil => rfl
        | cons x xs =>
            have h1 := ida x (hxs x (by simp))
            have h2 := idl xs (fun y hy => hxs y (by simp [hy]))
            simp only [decodeList, h1, h2]
      · intro ps hps
        cases ps with
        | nil => rfl
        | cons kx ps =>
            obtain ⟨kk, x⟩ := kx
            have h1 := ida x (hps (kk, x) (by simp))
            have h2 := idp ps (fun q hq => hps q (by simp [hq]))
            simp only [decodeProps, h1, h2]

/-- C9: `Predicate.prototype.replaceFields` works on a `jsprim.deepCopy`
of the receiver's tree and mutates only the copy: on a closed heap, a
successful `hReplaceFields` leaves every decoding of the receiver's root
— hence the receiver's subsequent evaluation and both printings, which
are functions of that decoded tree — unchanged, and the new predicate's
root lives entirely in the freshly allocated region, disjoint from the
receiver's. -/
theorem C9_replaceFields_frame (xlate : List (String × HAtom)) (cf mf : Nat)
    (h h2 : Heap) (r r1 : HAtom)
    (hclosed : heapClosed h) (hroot : atomLT h.length r)
    (hxp : xlatePrim xlate)
    (hrun : hReplaceFields xlate cf mf h r = .ok (h2, r1)) :
    (∀ fuel, decodeAtom h2 fuel r = decodeAtom h fuel r) ∧
    (∀ fuel, (decodeAtom h2 fuel r).map krillPrimEval =
      (decodeAtom h fuel r).map krillPrimEval) ∧
    (∀ fuel, (decodeAtom h2 fuel r).map krillPrimPrintCStyle =
      (decodeAtom h fuel r).map krillPrimPrintCStyle ∧
      (decodeAtom h2 fuel r).map krillPrimPrintLDAP =
      (decodeAtom h fuel r).map krillPrimPrintLDAP) ∧
    atomGE h.length r1 ∧ h.length ≤ h2.length := by
  unfold hReplaceFields at hrun
  split at hrun
  · cases hrun
  · rename_i h1 r1' hcopy
    split at hrun
    · cases hrun
    · rename_i h2' hwalk
      cases hrun
      obtain ⟨⟨hl1, hp1, hf1⟩, hr1⟩ :=
        (hCopy_spec h.length cf).1 h r h1 r1 (le_refl _)
          (heapFreshGE_rfl h) hcopy
      obtain ⟨hl2, hp2, hf2⟩ :=
        (hMutWalk_spec h.length xlate hxp mf).1 h1 r1 h2 hr1 hf1 hwalk
      have hagree : ∀ a, a < h.length → h2[a]? = h[a]? := fun a ha =>
        (hp2 a ha).trans (hp1 a ha)
      have hcl : ∀ a node, a < h.length → h[a]? = some node →
          nodeLT h.length node := fun a node _ hnode =>
        hclosed node (List.getElem?_mem hnode)
      have hdec : ∀ fuel, decodeAtom h2 fuel r = decodeAtom h fuel r :=
        fun fuel => (decode_congr h.length h h2 hagree hcl fuel).1 r hroot
      refine ⟨hdec, fun fuel => by rw [hdec fuel],
        fun fuel => ⟨by rw [hdec fuel], by rw [hdec fuel]⟩, hr1, ?_⟩
      rw [hl2]
      exact hl1

/-- C9 witness: the tree `{eq: [a, 1]}` on a two-cell heap, translated
with `a := "b"`: the walk mutates only the fresh copy (cell 2), the
receiver's root still decodes to the original tree, and the new root is
in the fresh region. -/
theorem C9_replaceFields_frame_witness :
    hReplaceFields [("a", HAtom.hstr "b")] 5 5
        [HNode.harr [HAtom.hstr "a", HAtom.hnum 1],
         HNode.hobj [("eq", HAtom.href 0)]] (HAtom.href 1) =
      .ok ([HNode.harr [HAtom.hstr "a", HAtom.hnum 1],
            HNode.hobj [("eq", HAtom.href 0)],
            HNode.harr [HAtom.hstr "b", HAtom.hnum 1],
            HNode.hobj [("eq", HAtom.href 2)]], HAtom.href 3) ∧
    decodeAtom [HNode.harr [HAtom.hstr "a", HAtom.hnum 1],
            HNode.hobj [("eq", HAtom.href 0)],
            HNode.harr [HAtom.hstr "b", HAtom.hnum 1],
            HNode.hobj [("eq", HAtom.href 2)]] 10 (HAtom.href 1) =
      decodeAtom [HNode.harr [HAtom.hstr "a", HAtom.hnum 1],
         HNode.hobj [("eq", HAtom.href 0)]] 10 (HAtom.href 1) ∧
    atomGE 2 (HAtom.href 3) := by
  refine ⟨rfl, ?_, ?_⟩
  · exact (C9_replaceFields_frame [("a", HAtom.hstr "b")] 5 5
      [HNode.harr [HAtom.hstr "a", HAtom.hnum 1],
       HNode.hobj [("eq", HAtom.href 0)]]
      [HNode.harr [HAtom.hstr "a", HAtom.hnum 1],
       HNode.hobj [("eq", HAtom.href 0)],
       HNode.harr [HAtom.hstr "b", HAtom.hnum 1],
       HNode.hobj [("eq", HAtom.href 2)]] (HAtom.href 1) (HAtom.href 3)
      (by
        intro node hnode
        rcases List.mem_cons.mp hnode with rfl | hnode1
        · intro x hx
          rcases List.mem_cons.mp hx with rfl | hx1
          · exact trivial
          · rcases List.mem_cons.mp hx1 with rfl | hx2
            · exact trivial
            · cases hx2
        · rcases List.mem_cons.mp hnode1 with rfl | hnode2
          · intro p hp
            rcases List.mem_cons.mp hp with rfl | hp1
            · exact (by decide : (0 : Nat) < 2)
            · cases hp1
          · cases hnode2)
      (by decide : (1 : Nat) < 2)
      (by
        intro p hp a
        rcases List.mem_cons.mp hp with rfl | hp1
        · simp
        · cases hp1)
      rfl).1 10
  · exact (C9_replaceFields_frame [("a", HAtom.hstr "b")] 5 5
      [HNode.harr [HAtom.hstr "a", HAtom.hnum 1],
       HNode.hobj [("eq", HAtom.href 0)]]
      [HNode.harr [HAtom.hstr "a", HAtom.hnum 1],
       HNode.hobj [("eq", HAtom.href 0)],
       HNode.harr [HAtom.hstr "b", HAtom.hnum 1],
       HNode.hobj [("eq", HAtom.href 2)]] (HAtom.href 1) (HAtom.href 3)
      (by
        intro node hnode
        rcases List.mem_cons.mp hnode with rfl | hnode1
        · intro x hx
          rcases List.mem_cons.mp hx with rfl | hx1
          · exact trivial
          · rcases List.mem_cons.mp hx1 with rfl | hx2
            · exact trivial
            · cases hx2
        · rcases List.mem_cons.mp hnode1 with rfl | hnode2
          · intro p hp
            rcases List.mem_cons.mp hp with rfl | hp1
            · exact (by decide : (0 : Nat) < 2)
            · cases hp1
          · cases hnode2)
      (by decide : (1 : Nat) < 2)
      (by
        intro p hp a
        rcases List.mem_cons.mp hp with rfl | hp1
        · simp
        · cases hp1)
      rfl).2.2.2.1

/-- C5 witness: each quantified part instantiated — a `lt` leaf, an `ne`
leaf, and an `and` node. -/
theorem C5_ldap_rendering_witness :
    krillPrimPrintLDAP (.obj [("lt", .arr [.str "latency", .num 10])]) =
      .ok "(latency<10)" ∧
    krillPrimPrintLDAP (.obj [("ne", .arr [.str "a", .str "b"])]) = .ok "(!(a=b))" ∧
    krillPrimPrintLDAP
        (.obj [("and", .arr [.obj [("lt", .arr [.str "latency", .num 10])],
                             .obj [("ne", .arr [.str "a", .str "b"])]])]) =
      .ok "(&(latency<10)(!(a=b)))" := by
  refine ⟨?_, ?_, ?_⟩
  · have h := C5_ldap_rendering.1 "lt" (.str "latency") (.num 10) rfl (by decide)
    simpa using h
  · have h := C5_ldap_rendering.2.1 (.str "a") (.str "b")
    simpa using h
  · have h := C5_ldap_rendering.2.2.1 "and"
      [.obj [("lt", .arr [.str "latency", .num 10])], .obj [("ne", .arr [.str "a", .str "b"])]]
      ["(latency<10)", "(!(a=b))"] rfl rfl
    simpa using h

end Krill
